import Mathlib

/-!
# Tile variants and mosaic composition of `CMain`

A shallow embedding of `Src/CMain.cpp`: the tile set built by
`CMain::CreateTiles`, the index source `CMain::RandomTileIndex`, the mosaic
composer `CMain::Generate` (with `CMain::CreateBitmap`) and the destination
rectangle of `CMain::OnPaint`.

Machine integers are `Nat`/`Int` with explicit reduction modulo `2 ^ 32`
(`UINT` is unsigned 32 bit, `int`/`INT` signed 32 bit).  A bitmap is its
width, its height and a pixel function; only the pixels inside
`[0, width) x [0, height)` are observable.  The Win32 menu and paint handles
carry no data used here and are left out of the state.
-/

namespace Mosaic

/-! ## Machine integers -/

/-- Conversion of an `int` to `UINT` (reduction modulo `2 ^ 32`). -/
def toUINT (z : Int) : Nat := (z % 4294967296).toNat

/-- Conversion of a `UINT` to `int` (two's complement). -/
def toINT (n : Nat) : Int :=
  if n % 4294967296 < 2147483648 then ((n % 4294967296 : Nat) : Int)
  else ((n % 4294967296 : Nat) : Int) - 4294967296

/-- The statement `x += w` for `int x` and `UINT w`: the sum is formed in
`UINT` and converted back to `int`. -/
def addAssign (x : Int) (w : Nat) : Int :=
  toINT ((toUINT x + w % 4294967296) % 4294967296)

/-- The Windows `min` macro, `((a) < (b)) ? (a) : (b)`. -/
def winMin (a b : Int) : Int := if a < b then a else b

/-- The Windows `max` macro, `((a) > (b)) ? (a) : (b)`. -/
def winMax (a b : Int) : Int := if a > b then a else b

/-! ## Bitmaps and the GDI+ primitives the program calls -/

/-- An ARGB colour value. -/
abbrev Color := Nat

/-- A `Gdiplus::Bitmap`: width, height and the pixel at column `x`, row `y`. -/
structure Bitmap where
  width : Nat
  height : Nat
  pixel : Nat → Nat → Color

/-- A bitmap GDI+ can hold: both dimensions are positive `INT` values. -/
def Bitmap.Valid (b : Bitmap) : Prop :=
  0 < b.width ∧ b.width < 2147483648 ∧ 0 < b.height ∧ b.height < 2147483648

instance (b : Bitmap) : Decidable b.Valid := by
  unfold Bitmap.Valid; infer_instance

/-- Two bitmaps with the same dimensions and the same pixel at every position
inside them. -/
def Bitmap.SameAs (a b : Bitmap) : Prop :=
  a.width = b.width ∧ a.height = b.height ∧
    ∀ x, x < a.width → ∀ y, y < a.height → a.pixel x y = b.pixel x y

instance (a b : Bitmap) : Decidable (a.SameAs b) := by
  unfold Bitmap.SameAs; infer_instance

/-- `Image::GetWidth`, returned as `UINT`. -/
def Bitmap.GetWidth (b : Bitmap) : Nat := b.width % 4294967296

/-- `Image::GetHeight`, returned as `UINT`. -/
def Bitmap.GetHeight (b : Bitmap) : Nat := b.height % 4294967296

/-- The bitmap object left behind by a failed `new Gdiplus::Bitmap`: it has no
pixels and reports width and height 0. -/
def Bitmap.invalid : Bitmap := ⟨0, 0, fun _ _ => 0⟩

/-- Modelled from the spec: `new Gdiplus::Bitmap(w, h)` is a GDI+ library call
whose code is not in the repository ("Allocate a fresh pixel buffer of size
`(8w, 8h)`"; "buffer allocation failure is the only error condition").  With
`mem` (the system grants the storage) and positive `INT` dimensions the result
is a `w x h` bitmap of transparent black pixels, otherwise the invalid
bitmap. -/
def Bitmap.create (mem : Bool) (w h : Int) : Bitmap :=
  if mem = true ∧ 0 < w ∧ 0 < h then ⟨w.toNat, h.toNat, fun _ _ => 0⟩
  else Bitmap.invalid

/-- Modelled from the spec: `Gdiplus::Graphics::Clear` is a GDI+ library call
("fill entirely with a single background color"). -/
def Clear (g : Bitmap) (c : Color) : Bitmap :=
  { g with pixel := fun _ _ => c }

/-- Modelled from the spec: `Gdiplus::Graphics::DrawImage(image, x, y)` is a
GDI+ library call ("copy all pixels of the tile into the output buffer at
origin `(x, y)`, full opaque overwrite (no blending)").  Pixels of the image
falling outside the target are clipped. -/
def DrawImage (g img : Bitmap) (x y : Int) : Bitmap :=
  { g with pixel := fun px py =>
      if x ≤ (px : Int) ∧ (px : Int) < x + img.width ∧
         y ≤ (py : Int) ∧ (py : Int) < y + img.height ∧
         px < g.width ∧ py < g.height
      then img.pixel ((px : Int) - x).toNat ((py : Int) - y).toNat
      else g.pixel px py }

/-- A clockwise rotation by 90 degrees: the left column of the source becomes
the top row of the result. -/
def rotate90 (b : Bitmap) : Bitmap :=
  ⟨b.height, b.width, fun x y => b.pixel y (b.height - 1 - x)⟩

/-- A horizontal (left-right) mirror. -/
def flipX (b : Bitmap) : Bitmap :=
  ⟨b.width, b.height, fun x y => b.pixel (b.width - 1 - x) y⟩

/-- Modelled from the spec: `Gdiplus::Image::RotateFlip` is a GDI+ library call
("rotate by 0/90/180/270 degrees, then optionally mirror horizontally",
enumerated as `RotateFlipType` lists them: values 0..3 are the clockwise
rotations by 0, 90, 180, 270 degrees without flip, values 4..7 the same
rotations followed by a horizontal flip). -/
def RotateFlip (t : Nat) (b : Bitmap) : Bitmap :=
  let r := rotate90^[t % 4] b
  if t / 4 % 2 = 1 then flipX r else r

/-! ## The program state -/

/-- The tesselation style, `CMain::eTesselation`. -/
inductive eTesselation where
  | Original
  | Random
  deriving DecidableEq, Repr

/-- `std::uniform_int_distribution<UINT>(a, b)(engine)`: from the bounds and
the engine state to the drawn value and the next engine state.  The standard
library is not part of the repository; the distribution is a parameter. -/
abbrev Distribution (S : Type) := Nat → Nat → S → Nat × S

/-- The contract of `std::uniform_int_distribution`: the drawn value lies in
the closed range it was built with. -/
def Distribution.InRange {S : Type} (U : Distribution S) : Prop :=
  ∀ a b s, a ≤ b → a ≤ (U a b s).1 ∧ (U a b s).1 ≤ b

/-- The data members of `CMain` that the generation functions use; `S` is the
state type of the pseudo-random engine.  `m_pBitmap = none` is the null
pointer. -/
structure CMain (S : Type) where
  m_pBitmap : Option Bitmap
  m_stdTile : List Bitmap
  m_pRand : S

/-- `CMain::CreateBitmap`: the current bitmap is deleted, then a new one is
allocated. -/
def CreateBitmap {S : Type} (mem : Bool) (w h : Int) (s : CMain S) : CMain S :=
  let s1 : CMain S := { s with m_pBitmap := none }
  { s1 with m_pBitmap := some (Bitmap.create mem w h) }

/-- `CMain::CreateTiles` for the image `pImage` loaded from the resource: for
`i = 0 .. 7` a fresh `w x h` bitmap receives a copy of the image, is
transformed by `RotateFlip(i)` and is pushed onto `m_stdTile`. -/
def CreateTiles {S : Type} (mem : Bool) (pImage : Bitmap) (s : CMain S) : CMain S :=
  let w := pImage.GetWidth
  let h := pImage.GetHeight
  { s with m_stdTile := (List.range 8).foldl (fun tiles i =>
      let pBitmap := Bitmap.create mem (toINT w) (toINT h)
      let pBitmap := DrawImage pBitmap pImage 0 0
      let pBitmap := RotateFlip i pBitmap
      tiles ++ [pBitmap]) s.m_stdTile }

/-- `CMain::RandomTileIndex`: a draw from `[0, nMax]` with
`nMax = (UINT)m_stdTile.size() - 1`. -/
def RandomTileIndex {S : Type} (U : Distribution S) (tiles : List Bitmap) (r : S) : Nat × S :=
  let nMax := (tiles.length % 4294967296 + 4294967296 - 1) % 4294967296
  U 0 nMax r

/-- The table `nOriginal` of `CMain::Generate`. -/
def nOriginal : List (List Nat) :=
  [[0, 1, 5, 4, 5, 6, 0, 3],
   [1, 2, 6, 5, 6, 7, 3, 2],
   [0, 1, 0, 1, 0, 1, 0, 1],
   [1, 2, 3, 0, 3, 0, 3, 0],
   [5, 6, 0, 3, 0, 1, 5, 4],
   [6, 7, 3, 2, 1, 2, 6, 5],
   [0, 1, 0, 1, 0, 1, 0, 1],
   [3, 0, 3, 0, 1, 2, 3, 0]]

/-- The array access `nOriginal[i][j]`; `none` outside the array. -/
def nOriginalAt (i j : Nat) : Option Nat :=
  match nOriginal[i]? with
  | none => none
  | some row => row[j]?

/-- Number of tiles per side of the bitmap. -/
def nSize : Nat := 8

/-- The background colour `Gdiplus::Color(143, 158, 104)`, opaque. -/
def fillColor : Color := 0xFF8F9E68

/-- The `switch` of `CMain::Generate`: the tile index for cell `(i, j)` and the
engine state after choosing it. -/
def tileIndex {S : Type} (tess : eTesselation) (U : Distribution S) (tiles : List Bitmap)
    (i j : Nat) (r : S) : Option (Nat × S) :=
  match tess with
  | .Original =>
    match nOriginalAt i j with
    | none => none
    | some n => some (n, r)
  | .Random => some (RandomTileIndex U tiles r)

/-- The variables carried by a loop of `CMain::Generate`: the bitmap drawn
into, the engine state and the running coordinate (`x` in the inner loop, `y`
in the outer one). -/
structure Cursor (S : Type) where
  g : Bitmap
  rand : S
  pos : Int

/-- One pass of the inner loop of `CMain::Generate`, for row `i` at vertical
coordinate `y` and column `j`: choose the index, draw the tile at `(x, y)`,
`x += w`.  `none` is an access outside `nOriginal` or `m_stdTile`. -/
def drawTile {S : Type} (tess : eTesselation) (U : Distribution S) (tiles : List Bitmap)
    (w : Nat) (i : Nat) (y : Int) (st : Cursor S) (j : Nat) : Option (Cursor S) :=
  match tileIndex tess U tiles i j st.rand with
  | none => none
  | some (nTileIndex, r) =>
    match tiles[nTileIndex]? with
    | none => none
    | some t => some ⟨DrawImage st.g t st.pos y, r, addAssign st.pos w⟩

/-- One pass of the outer loop of `CMain::Generate`, for row `i`: `x = 0`, the
inner loop over `j = 0 .. nSize - 1`, `y += h`. -/
def drawRow {S : Type} (tess : eTesselation) (U : Distribution S) (tiles : List Bitmap)
    (w h : Nat) (st : Cursor S) (i : Nat) : Option (Cursor S) :=
  match (List.range nSize).foldlM (drawTile tess U tiles w i st.pos) ⟨st.g, st.rand, 0⟩ with
  | none => none
  | some st1 => some ⟨st1.g, st1.rand, addAssign st.pos h⟩

/-- `CMain::Generate`: the tile size is read from tile 0, the bitmap is
replaced by a new one of `w * nSize` by `h * nSize` pixels filled with the
background colour, and the 64 cells are drawn row by row.  `mem` tells whether
the allocation of the new bitmap is granted. -/
def Generate {S : Type} (U : Distribution S) (mem : Bool) (tess : eTesselation)
    (s : CMain S) : Option (CMain S) :=
  match s.m_stdTile[0]? with
  | none => none
  | some t0 =>
    let w := t0.GetWidth
    let h := t0.GetHeight
    let s1 := CreateBitmap mem (toINT (w * nSize % 4294967296)) (toINT (h * nSize % 4294967296)) s
    match s1.m_pBitmap with
    | none => none
    | some b =>
      match (List.range nSize).foldlM (drawRow tess U s1.m_stdTile w h)
          ⟨Clear b fillColor, s1.m_pRand, 0⟩ with
      | none => none
      | some st => some { s1 with m_pBitmap := some st.g, m_pRand := st.rand }

/-- The destination rectangle `(x, y, width, height)` computed by
`CMain::OnPaint` from the bitmap size and the client-area size. -/
def OnPaint (nBitmapWidth nBitmapHeight nClientWidth nClientHeight : Int) :
    Int × Int × Int × Int :=
  let nDestSide := winMin nClientWidth nClientHeight
  let width := winMin nDestSide nBitmapWidth
  let height := winMin nDestSide nBitmapHeight
  let x := (winMax 0 (nClientWidth - width)).tdiv 2
  let y := (winMax 0 (nClientHeight - height)).tdiv 2
  (x, y, width, height)

/-! ## Names for what the loops of `Generate` compute -/

/-- The tile `m_stdTile[i]`. -/
def tileAt {S : Type} (s : CMain S) (i : Nat) : Bitmap := s.m_stdTile.getD i Bitmap.invalid

/-- The copy of the resource image that `CreateTiles` hands to `RotateFlip`. -/
def tileCopy (mem : Bool) (pImage : Bitmap) : Bitmap :=
  DrawImage (Bitmap.create mem (toINT pImage.GetWidth) (toINT pImage.GetHeight)) pImage 0 0

/-- The engine state after one call of `RandomTileIndex`. -/
def nextRand {S : Type} (U : Distribution S) (tiles : List Bitmap) (r : S) : S :=
  (RandomTileIndex U tiles r).2

/-- The value returned by call number `k` (counting from 0) of a run of
successive calls of `RandomTileIndex` that starts in engine state `r`. -/
def nthDraw {S : Type} (U : Distribution S) (tiles : List Bitmap) (r : S) (k : Nat) : Nat :=
  (RandomTileIndex U tiles ((nextRand U tiles)^[k] r)).1

/-- The distribution `U` on an engine that also counts the draws made from
it. -/
def counting {S : Type} (U : Distribution S) : Distribution (S × Nat) :=
  fun a b s => ((U a b s.1).1, ((U a b s.1).2, s.2 + 1))

/-- The tile index `Generate` uses for cell `(row, col)` when started in engine
state `r`: the table entry, or the value of call number `8 * row + col`. -/
def chosenIndex {S : Type} (tess : eTesselation) (U : Distribution S) (tiles : List Bitmap)
    (r : S) (row col : Nat) : Nat :=
  match tess with
  | .Original => (nOriginalAt row col).getD 0
  | .Random => nthDraw U tiles r (8 * row + col)

/-- The engine state `Generate` ends in when started in engine state `r`. -/
def finalRand {S : Type} (tess : eTesselation) (U : Distribution S) (tiles : List Bitmap)
    (r : S) : S :=
  match tess with
  | .Original => r
  | .Random => (nextRand U tiles)^[64] r

/-- The index and engine state that the `switch` of `Generate` yields inside
the grid. -/
def pick {S : Type} (tess : eTesselation) (U : Distribution S) (tiles : List Bitmap)
    (i j : Nat) (r : S) : Nat × S :=
  match tess with
  | .Original => ((nOriginalAt i j).getD 0, r)
  | .Random => RandomTileIndex U tiles r

/-- The engine state after `n` successive choices `q 0, q 1, ..`, each a
function from the engine state to an index and the next state. -/
def randAfter {S : Type} (q : Nat → S → Nat × S) (r : S) : Nat → S
  | 0 => r
  | n + 1 => (q n (randAfter q r n)).2

/-- The index produced by choice number `n` of such a run. -/
def indexAt {S : Type} (q : Nat → S → Nat × S) (r : S) (n : Nat) : Nat :=
  (q n (randAfter q r n)).1

/-- The choices of the 64 cells in row-major order: choice `k` belongs to cell
`(k / 8, k % 8)`. -/
def gridPick {S : Type} (p : Nat → Nat → S → Nat × S) (k : Nat) (r : S) : Nat × S :=
  p (k / 8) (k % 8) r

/-! ## The all-or-nothing reading of `Generate` -/

/-- The current bitmap of `s1` is a mosaic fully composed from the tiles of
`s`: it is 8 tiles wide and 8 tiles high and each of its 64 blocks equals one
of the tiles. -/
def ComposedMosaic {S : Type} (s s1 : CMain S) : Prop :=
  ∃ b, s1.m_pBitmap = some b ∧
    b.width = 8 * (tileAt s 0).width ∧ b.height = 8 * (tileAt s 0).height ∧
    ∀ row, row < 8 → ∀ col, col < 8 → ∃ t, t ∈ s.m_stdTile ∧
      ∀ dx, dx < t.width → ∀ dy, dy < t.height →
        b.pixel (col * (tileAt s 0).width + dx) (row * (tileAt s 0).height + dy) = t.pixel dx dy

/-- The current bitmap of `s1` is the bitmap that was current in `s`, with its
pixels unchanged. -/
def PreviousIntact {S : Type} (s s1 : CMain S) : Prop :=
  match s.m_pBitmap, s1.m_pBitmap with
  | some a, some b => b.SameAs a
  | none, none => True
  | _, _ => False

/-- The claim that `Generate` is all-or-nothing: the call completes, and then
either the current bitmap is the fully composed new mosaic, or the allocation
failed and the previously current bitmap is still the current one, intact. -/
def AllOrNothing {S : Type} (U : Distribution S) (mem : Bool) (tess : eTesselation)
    (s : CMain S) : Prop :=
  ∃ s1, Generate U mem tess s = some s1 ∧
    (ComposedMosaic s s1 ∨ (mem = false ∧ PreviousIntact s s1))

/-! ## The destination rectangle and the cells of the grid -/

/-- The destination rectangle of `OnPaint` has the aspect ratio of the bitmap:
`width * bh = height * bw`. -/
def PreservesAspect (bw bh cw ch : Int) : Prop :=
  (OnPaint bw bh cw ch).2.2.1 * bh = (OnPaint bw bh cw ch).2.2.2 * bw

instance (bw bh cw ch : Int) : Decidable (PreservesAspect bw bh cw ch) := by
  unfold PreservesAspect; infer_instance

/-- Pixel `(px, py)` lies in the rectangle of cell `(row, col)`: origin
`(col * w, row * h)`, size `w x h`. -/
def inCell (w h row col px py : Nat) : Prop :=
  col * w ≤ px ∧ px < (col + 1) * w ∧ row * h ≤ py ∧ py < (row + 1) * h

/-- The drawing step of `Generate` run over the cells `(row, col)` of `order`,
in that order: the tile with index `a row col` is drawn at the origin of the
cell. -/
def blitCells (tiles : List Bitmap) (w h : Nat) (a : Nat → Nat → Nat)
    (order : List (Nat × Nat)) (g : Bitmap) : Bitmap :=
  order.foldl (fun g cell =>
    DrawImage g (tiles.getD (a cell.1 cell.2) Bitmap.invalid)
      ((cell.2 * w : Nat) : Int) ((cell.1 * h : Nat) : Int)) g

/-- The block of cell `(row, col)` of the bitmap `b` for cells of `w x h`
pixels, as a bitmap of its own: columns `[col * w, (col + 1) * w)` and rows
`[row * h, (row + 1) * h)` of `b`. -/
def block (b : Bitmap) (w h row col : Nat) : Bitmap :=
  ⟨w, h, fun x y => b.pixel (col * w + x) (row * h + y)⟩

/-! ## Concrete inputs -/

/-- A 3 x 2 source image with six different pixels. -/
def tile32 : Bitmap := ⟨3, 2, fun x y => 10 + 3 * y + x⟩


/-- Eight tiles of 3 x 2 pixels; tile `k` is filled with the colour `k`. -/
def flatTiles : List Bitmap := (List.range 8).map (fun k => ⟨3, 2, fun _ _ => k⟩)

/-- The literal rows of the table of the original tesselation. -/
def originalRows : List (List (Option Nat)) :=
  [[some 0, some 1, some 5, some 4, some 5, some 6, some 0, some 3],
   [some 1, some 2, some 6, some 5, some 6, some 7, some 3, some 2],
   [some 0, some 1, some 0, some 1, some 0, some 1, some 0, some 1],
   [some 1, some 2, some 3, some 0, some 3, some 0, some 3, some 0],
   [some 5, some 6, some 0, some 3, some 0, some 1, some 5, some 4],
   [some 6, some 7, some 3, some 2, some 1, some 2, some 6, some 5],
   [some 0, some 1, some 0, some 1, some 0, some 1, some 0, some 1],
   [some 3, some 0, some 3, some 0, some 1, some 2, some 3, some 0]]

/-- A linear congruential engine with the reduction of its state into the
requested range. -/
def lcg : Distribution Nat := fun a b s => (a + s % (b - a + 1), s * 16807 % 2147483647)

/-- A 2 x 2 source image with four different pixels. -/
def tile2 : Bitmap := ⟨2, 2, fun x y => 10 + 2 * y + x⟩

/-- The state of `CMain` before `CreateTiles`: no bitmap, no tiles. -/
def start : CMain Nat := ⟨none, [], 42⟩

/-- The state after the constructor for a 2 x 2 source image: the tiles are
built and the original mosaic (16 x 16) is the current bitmap. -/
def constructed : CMain Nat :=
  (Generate lcg true .Original (CreateTiles true tile2 start)).getD start

/-! ## Machine arithmetic and the drawing primitives -/

/-- A value below `2 ^ 31` survives the conversion to `int`. -/
theorem toINT_of_lt (n : Nat) (h : n < 2147483648) : toINT n = (n : Int) := by
  unfold toINT
  have : n % 4294967296 = n := Nat.mod_eq_of_lt (by omega)
  rw [this, if_pos h]

/-- Without overflow `x += w` is the sum. -/
theorem addAssign_of_lt (x w : Nat) (h : x + w < 2147483648) :
    addAssign (x : Int) w = ((x + w : Nat) : Int) := by
  unfold addAssign toUINT
  have h1 : ((x : Int) % 4294967296).toNat = x := by omega
  have h2 : w % 4294967296 = w := Nat.mod_eq_of_lt (by omega)
  have h3 : (x + w) % 4294967296 = x + w := Nat.mod_eq_of_lt (by omega)
  rw [h1, h2, h3, toINT_of_lt _ h]

/-- One pass of the inner loop when the index is chosen and in bounds. -/
theorem drawTile_eq {S : Type} (tess : eTesselation) (U : Distribution S) (tiles : List Bitmap)
    (w i : Nat) (y : Int) (st : Cursor S) (j : Nat) (q : Nat × S)
    (h1 : tileIndex tess U tiles i j st.rand = some q) (h2 : q.1 < tiles.length) :
    drawTile tess U tiles w i y st j =
      some ⟨DrawImage st.g (tiles.getD q.1 Bitmap.invalid) st.pos y, q.2, addAssign st.pos w⟩ := by
  unfold drawTile
  rw [h1]
  simp only [List.getElem?_eq_getElem h2, List.getD_eq_getElem tiles Bitmap.invalid h2]

/-- Pixel of a tile drawn at a cell origin, read inside the cell. -/
theorem DrawImage_inside (g t : Bitmap) (x y dx dy : Nat)
    (hx : dx < t.width) (hy : dy < t.height) (hgx : x + dx < g.width) (hgy : y + dy < g.height) :
    (DrawImage g t (x : Int) (y : Int)).pixel (x + dx) (y + dy) = t.pixel dx dy := by
  unfold DrawImage
  simp only
  rw [if_pos]
  · congr 1 <;> omega
  · refine ⟨?_, ?_, ?_, ?_, hgx, hgy⟩ <;> omega

/-- A pixel outside the rectangle of the drawn image is unchanged. -/
theorem DrawImage_outside (g t : Bitmap) (x y : Int) (px py : Nat)
    (h : (px : Int) < x ∨ x + t.width ≤ (px : Int) ∨ (py : Int) < y ∨ y + t.height ≤ (py : Int)) :
    (DrawImage g t x y).pixel px py = g.pixel px py := by
  unfold DrawImage
  simp only
  rw [if_neg]
  rintro ⟨h1, h2, h3, h4, -, -⟩
  omega

/-- Invariant of the inner loop after `n` columns of row `i`: the engine has made
`n` choices, `x = n * w`, the first `n` cells of the row hold their tiles and
the pixels outside the band of the row are untouched. -/
theorem row_invariant {S : Type} (tess : eTesselation) (U : Distribution S) (tiles : List Bitmap)
    (w h i : Nat) (q : Nat → S → Nat × S)
    (hw : 8 * w < 2147483648) (hi : i < 8)
    (hq : ∀ j, j < 8 → ∀ r, tileIndex tess U tiles i j r = some (q j r) ∧ (q j r).1 < tiles.length)
    (hsz : ∀ t ∈ tiles, t.width = w ∧ t.height = h)
    (g : Bitmap) (hgw : g.width = 8 * w) (hgh : g.height = 8 * h) (r : S) (n : Nat) (hn : n ≤ 8) :
    ∃ gn, (List.range n).foldlM (drawTile tess U tiles w i ((i * h : Nat) : Int)) ⟨g, r, 0⟩
        = some ⟨gn, randAfter q r n, ((n * w : Nat) : Int)⟩ ∧
      gn.width = g.width ∧ gn.height = g.height ∧
      (∀ c, c < n → ∀ dx, dx < w → ∀ dy, dy < h →
        gn.pixel (c * w + dx) (i * h + dy) = (tiles.getD (indexAt q r c) Bitmap.invalid).pixel dx dy) ∧
      (∀ px py, (py < i * h ∨ (i + 1) * h ≤ py) → gn.pixel px py = g.pixel px py) := by
  induction n with
  | zero =>
    refine ⟨g, ?_, rfl, rfl, ?_, ?_⟩
    · simp [randAfter]
    · intro c hc; omega
    · intro _ _ _; rfl
  | succ n ih =>
    obtain ⟨gn, hfold, hgnw, hgnh, hcells, hout⟩ := ih (by omega)
    obtain ⟨hidx, hlt⟩ := hq n (by omega) (randAfter q r n)
    have hmem : tiles.getD (q n (randAfter q r n)).1 Bitmap.invalid ∈ tiles := by
      rw [List.getD_eq_getElem tiles Bitmap.invalid hlt]
      exact List.getElem_mem hlt
    obtain ⟨htw, hth⟩ := hsz _ hmem
    have hnw : n * w + w ≤ 8 * w := by
      have := Nat.mul_le_mul_right w (show n + 1 ≤ 8 by omega)
      rw [Nat.succ_mul] at this
      exact this
    have hih : i * h + h ≤ 8 * h := by
      have := Nat.mul_le_mul_right h (show i + 1 ≤ 8 by omega)
      rw [Nat.succ_mul] at this
      exact this
    refine ⟨DrawImage gn (tiles.getD (q n (randAfter q r n)).1 Bitmap.invalid)
        ((n * w : Nat) : Int) ((i * h : Nat) : Int), ?_, hgnw, hgnh, ?_, ?_⟩
    · rw [List.range_succ, List.foldlM_append, hfold]
      simp only [List.foldlM_cons, List.foldlM_nil, bind_pure, Option.some_bind, Option.bind_eq_bind]
      rw [drawTile_eq tess U tiles w i _ _ n (q n (randAfter q r n)) hidx hlt]
      simp only [randAfter]
      rw [addAssign_of_lt _ _ (by omega), Nat.succ_mul]
    · intro c hc dx hdx dy hdy
      by_cases hcn : c = n
      · subst hcn
        rw [DrawImage_inside _ _ _ _ _ _ (by omega) (by omega) (by omega) (by omega)]
        rfl
      · have hc2 : c * w + w ≤ n * w := by
          have := Nat.mul_le_mul_right w (show c + 1 ≤ n by omega)
          rw [Nat.succ_mul] at this
          exact this
        rw [DrawImage_outside _ _ _ _ _ _ (Or.inl (by omega))]
        exact hcells c (by omega) dx hdx dy hdy
    · intro px py hpy
      rw [DrawImage_outside _ _ _ _ _ _ (by
        rw [hth]
        rcases hpy with hpy | hpy
        · exact Or.inr (Or.inr (Or.inl (by omega)))
        · rw [Nat.succ_mul] at hpy
          exact Or.inr (Or.inr (Or.inr (by omega))))]
      exact hout px py hpy

theorem randAfter_row {S : Type} (p : Nat → Nat → S → Nat × S) (r0 : S) (i n : Nat) (hn : n ≤ 8) :
    randAfter (p i) (randAfter (gridPick p) r0 (8 * i)) n = randAfter (gridPick p) r0 (8 * i + n) := by
  induction n with
  | zero => rfl
  | succ n ih =>
    have h1 : (8 * i + n) / 8 = i := by omega
    have h2 : (8 * i + n) % 8 = n := by omega
    show (p i n (randAfter (p i) _ n)).2 = (gridPick p (8 * i + n) (randAfter (gridPick p) r0 (8 * i + n))).2
    rw [ih (by omega)]
    unfold gridPick
    rw [h1, h2]

theorem indexAt_row {S : Type} (p : Nat → Nat → S → Nat × S) (r0 : S) (i c : Nat) (hc : c < 8) :
    indexAt (p i) (randAfter (gridPick p) r0 (8 * i)) c = indexAt (gridPick p) r0 (8 * i + c) := by
  have h1 : (8 * i + c) / 8 = i := by omega
  have h2 : (8 * i + c) % 8 = c := by omega
  unfold indexAt
  rw [randAfter_row p r0 i c (by omega)]
  unfold gridPick
  rw [h1, h2]

/-- Invariant of the outer loop after `m` rows: the engine has made `8 * m`
choices, `y = m * h` and the cells of the first `m` rows hold their tiles. -/
theorem grid_invariant {S : Type} (tess : eTesselation) (U : Distribution S) (tiles : List Bitmap)
    (w h : Nat) (p : Nat → Nat → S → Nat × S)
    (hw : 8 * w < 2147483648) (hh : 8 * h < 2147483648)
    (hp : ∀ i, i < 8 → ∀ j, j < 8 → ∀ r,
      tileIndex tess U tiles i j r = some (p i j r) ∧ (p i j r).1 < tiles.length)
    (hsz : ∀ t ∈ tiles, t.width = w ∧ t.height = h)
    (g : Bitmap) (hgw : g.width = 8 * w) (hgh : g.height = 8 * h) (r0 : S) (m : Nat) (hm : m ≤ 8) :
    ∃ gm, (List.range m).foldlM (drawRow tess U tiles w h) ⟨g, r0, 0⟩
        = some ⟨gm, randAfter (gridPick p) r0 (8 * m), ((m * h : Nat) : Int)⟩ ∧
      gm.width = 8 * w ∧ gm.height = 8 * h ∧
      (∀ row, row < m → ∀ col, col < 8 → ∀ dx, dx < w → ∀ dy, dy < h →
        gm.pixel (col * w + dx) (row * h + dy)
          = (tiles.getD (indexAt (gridPick p) r0 (8 * row + col)) Bitmap.invalid).pixel dx dy) := by
  induction m with
  | zero =>
    refine ⟨g, ?_, hgw, hgh, ?_⟩
    · simp [randAfter]
    · intro row hrow; omega
  | succ m ih =>
    obtain ⟨gm, hfold, hgmw, hgmh, hcells⟩ := ih (by omega)
    obtain ⟨gn, hrowfold, hgnw, hgnh, hrowcells, hrowout⟩ :=
      row_invariant tess U tiles w h m (p m) hw (by omega) (hp m (by omega)) hsz gm hgmw hgmh
        (randAfter (gridPick p) r0 (8 * m)) 8 (le_refl 8)
    have hmh : m * h + h ≤ 8 * h := by
      have := Nat.mul_le_mul_right h (show m + 1 ≤ 8 by omega)
      rw [Nat.succ_mul] at this
      exact this
    refine ⟨gn, ?_, by rw [hgnw, hgmw], by rw [hgnh, hgmh], ?_⟩
    · rw [List.range_succ, List.foldlM_append, hfold]
      simp only [List.foldlM_cons, List.foldlM_nil, bind_pure, Option.some_bind, Option.bind_eq_bind]
      unfold drawRow
      simp only [nSize]
      rw [hrowfold]
      simp only
      rw [addAssign_of_lt _ _ (by omega), randAfter_row p r0 m 8 (le_refl 8),
        show m * h + h = (m + 1) * h from (Nat.succ_mul m h).symm]
      rfl
    · intro row hrow col hcol dx hdx dy hdy
      by_cases hrm : row = m
      · subst hrm
        rw [hrowcells col hcol dx hdx dy hdy, indexAt_row p r0 row col hcol]
      · have hr2 : row * h + h ≤ m * h := by
          have := Nat.mul_le_mul_right h (show row + 1 ≤ m by omega)
          rw [Nat.succ_mul] at this
          exact this
        rw [hrowout _ _ (Or.inl (by omega))]
        exact hcells row (by omega) col hcol dx hdx dy hdy

theorem create_true (w h : Nat) (hw : 0 < w) (hh : 0 < h) :
    Bitmap.create true (w : Int) (h : Int) = ⟨w, h, fun _ _ => 0⟩ := by
  unfold Bitmap.create
  rw [if_pos ⟨rfl, by omega, by omega⟩]
  simp

/-- The result of `Generate` when the allocation is granted, for any source of
indices `p` that stays inside the tile list. -/
theorem Generate_spec {S : Type} (tess : eTesselation) (U : Distribution S) (w h : Nat)
    (p : Nat → Nat → S → Nat × S) (s : CMain S)
    (hw0 : 0 < w) (hh0 : 0 < h) (hw : 8 * w < 2147483648) (hh : 8 * h < 2147483648)
    (hp : ∀ i, i < 8 → ∀ j, j < 8 → ∀ r,
      tileIndex tess U s.m_stdTile i j r = some (p i j r) ∧ (p i j r).1 < s.m_stdTile.length)
    (hsz : ∀ t ∈ s.m_stdTile, t.width = w ∧ t.height = h) :
    ∃ b, Generate U true tess s
        = some ⟨some b, s.m_stdTile, randAfter (gridPick p) s.m_pRand 64⟩ ∧
      b.width = 8 * w ∧ b.height = 8 * h ∧
      (∀ row, row < 8 → ∀ col, col < 8 → ∀ dx, dx < w → ∀ dy, dy < h →
        b.pixel (col * w + dx) (row * h + dy)
          = (s.m_stdTile.getD (indexAt (gridPick p) s.m_pRand (8 * row + col)) Bitmap.invalid).pixel
              dx dy) := by
  have hlen : 0 < s.m_stdTile.length :=
    lt_of_le_of_lt (Nat.zero_le _) (hp 0 (by omega) 0 (by omega) s.m_pRand).2
  obtain ⟨ht0w, ht0h⟩ := hsz _ (List.getElem_mem hlen)
  have hW : toINT (s.m_stdTile[0].GetWidth * nSize % 4294967296) = ((8 * w : Nat) : Int) := by
    unfold Bitmap.GetWidth nSize
    rw [ht0w, ← toINT_of_lt _ hw]
    congr 1
    omega
  have hH : toINT (s.m_stdTile[0].GetHeight * nSize % 4294967296) = ((8 * h : Nat) : Int) := by
    unfold Bitmap.GetHeight nSize
    rw [ht0h, ← toINT_of_lt _ hh]
    congr 1
    omega
  obtain ⟨gm, hfold, hgw, hgh, hcells⟩ :=
    grid_invariant tess U s.m_stdTile w h p hw hh hp hsz
      (Clear ⟨8 * w, 8 * h, fun _ _ => 0⟩ fillColor) rfl rfl s.m_pRand 8 (le_refl 8)
  refine ⟨gm, ?_, hgw, hgh, hcells⟩
  have hGW : s.m_stdTile[0].GetWidth = w := by
    unfold Bitmap.GetWidth
    rw [ht0w]
    omega
  have hGH : s.m_stdTile[0].GetHeight = h := by
    unfold Bitmap.GetHeight
    rw [ht0h]
    omega
  unfold Generate
  rw [List.getElem?_eq_getElem hlen]
  simp only [CreateBitmap, hW, hH]
  rw [create_true _ _ (by omega) (by omega)]
  simp only [nSize, hGW, hGH]
  rw [hfold]

theorem CreateTiles_list {S : Type} (mem : Bool) (src : Bitmap) (s : CMain S) :
    (CreateTiles mem src s).m_stdTile = s.m_stdTile ++ (List.range 8).map (fun i => RotateFlip i (tileCopy mem src)) := by
  simp [CreateTiles, tileCopy, List.range, List.range.loop]

theorem tileCopy_sameAs (src : Bitmap) (hv : src.Valid) : (tileCopy true src).SameAs src := by
  obtain ⟨h1, h2, h3, h4⟩ := hv
  have hW : toINT src.GetWidth = (src.width : Int) := by
    unfold Bitmap.GetWidth
    rw [← toINT_of_lt _ h2]
    congr 1
    omega
  have hH : toINT src.GetHeight = (src.height : Int) := by
    unfold Bitmap.GetHeight
    rw [← toINT_of_lt _ h4]
    congr 1
    omega
  unfold tileCopy
  rw [hW, hH, create_true _ _ h1 h3]
  refine ⟨rfl, rfl, ?_⟩
  intro x hx y hy
  have := DrawImage_inside ⟨src.width, src.height, fun _ _ => 0⟩ src 0 0 x y hx hy
    (by simpa using hx) (by simpa using hy)
  simpa using this

theorem SameAs_refl (a : Bitmap) : a.SameAs a := ⟨rfl, rfl, fun _ _ _ _ => rfl⟩

theorem SameAs_trans {a b c : Bitmap} (h1 : a.SameAs b) (h2 : b.SameAs c) : a.SameAs c := by
  obtain ⟨w1, e1, p1⟩ := h1
  obtain ⟨w2, e2, p2⟩ := h2
  refine ⟨w1.trans w2, e1.trans e2, ?_⟩
  intro x hx y hy
  rw [p1 x hx y hy, p2 x (w1 ▸ hx) y (e1 ▸ hy)]

theorem rotate90_congr {a b : Bitmap} (h : a.SameAs b) : (rotate90 a).SameAs (rotate90 b) := by
  obtain ⟨hw, hh, hp⟩ := h
  refine ⟨hh, hw, ?_⟩
  intro x hx y hy
  show a.pixel y (a.height - 1 - x) = b.pixel y (b.height - 1 - x)
  have hx2 : x < a.height := hx
  rw [← hh]
  exact hp y hy _ (by omega)

theorem flipX_congr {a b : Bitmap} (h : a.SameAs b) : (flipX a).SameAs (flipX b) := by
  obtain ⟨hw, hh, hp⟩ := h
  refine ⟨hw, hh, ?_⟩
  intro x hx y hy
  show a.pixel (a.width - 1 - x) y = b.pixel (b.width - 1 - x) y
  have hx2 : x < a.width := hx
  rw [← hw]
  exact hp _ (by omega) y hy

theorem rotate90_iterate_congr {a b : Bitmap} (h : a.SameAs b) (k : Nat) :
    (rotate90^[k] a).SameAs (rotate90^[k] b) := by
  induction k with
  | zero => exact h
  | succ k ih =>
    rw [Function.iterate_succ_apply', Function.iterate_succ_apply']
    exact rotate90_congr ih

theorem RotateFlip_congr {a b : Bitmap} (h : a.SameAs b) (t : Nat) :
    (RotateFlip t a).SameAs (RotateFlip t b) := by
  unfold RotateFlip
  simp only
  split
  · exact flipX_congr (rotate90_iterate_congr h _)
  · exact rotate90_iterate_congr h _

theorem SameAs_symm {a b : Bitmap} (h : a.SameAs b) : b.SameAs a := by
  obtain ⟨hw, hh, hp⟩ := h
  exact ⟨hw.symm, hh.symm, fun x hx y hy => (hp x (hw ▸ hx) y (hh ▸ hy)).symm⟩

theorem tileAt_CreateTiles {S : Type} (mem : Bool) (src : Bitmap) (s0 : CMain S)
    (h0 : s0.m_stdTile = []) (i : Nat) (hi : i < 8) :
    tileAt (CreateTiles mem src s0) i = RotateFlip i (tileCopy mem src) := by
  unfold tileAt
  rw [CreateTiles_list, h0]
  interval_cases i <;> rfl

theorem length_CreateTiles {S : Type} (mem : Bool) (src : Bitmap) (s0 : CMain S)
    (h0 : s0.m_stdTile = []) : (CreateTiles mem src s0).m_stdTile.length = 8 := by
  rw [CreateTiles_list, h0]
  rfl

theorem RotateFlip_rot (i : Nat) (hi : i < 4) (b : Bitmap) : RotateFlip i b = rotate90^[i] b := by
  unfold RotateFlip
  have h1 : i % 4 = i := Nat.mod_eq_of_lt hi
  have h2 : ¬ (i / 4 % 2 = 1) := by omega
  simp only [h1, if_neg h2]

theorem RotateFlip_flip (i : Nat) (hi : i < 4) (b : Bitmap) :
    RotateFlip (4 + i) b = flipX (rotate90^[i] b) := by
  unfold RotateFlip
  have h1 : (4 + i) % 4 = i := by omega
  have h2 : (4 + i) / 4 % 2 = 1 := by omega
  simp only [h1, if_pos h2]

/-- C3: `CreateTiles` (starting from an empty tile list) produces exactly 8
variants of a source image; variant `i` is the source transformed by
`RotateFlip i`, so for `i < 4` variant `i` is the source rotated clockwise by
90 degrees `i` times (variant 0 is the source itself) and variant `4 + i` is
variant `i` mirrored horizontally. -/
theorem CreateTiles_variants {S : Type} (src : Bitmap) (hv : src.Valid) (s0 : CMain S)
    (h0 : s0.m_stdTile = []) :
    (CreateTiles true src s0).m_stdTile.length = 8 ∧
    (∀ i, i < 8 → (tileAt (CreateTiles true src s0) i).SameAs (RotateFlip i src)) ∧
    (tileAt (CreateTiles true src s0) 0).SameAs src ∧
    (∀ i, i < 4 → (tileAt (CreateTiles true src s0) i).SameAs (rotate90^[i] src)) ∧
    (∀ i, i < 4 → (tileAt (CreateTiles true src s0) (4 + i)).SameAs
      (flipX (tileAt (CreateTiles true src s0) i))) := by
  have hall : ∀ i, i < 8 → (tileAt (CreateTiles true src s0) i).SameAs (RotateFlip i src) := by
    intro i hi
    rw [tileAt_CreateTiles true src s0 h0 i hi]
    exact RotateFlip_congr (tileCopy_sameAs src hv) i
  have hrot : ∀ i, i < 4 → (tileAt (CreateTiles true src s0) i).SameAs (rotate90^[i] src) := by
    intro i hi
    rw [← RotateFlip_rot i hi src]
    exact hall i (by omega)
  refine ⟨length_CreateTiles true src s0 h0, hall, hrot 0 (by omega), hrot, ?_⟩
  intro i hi
  have h1 := hall (4 + i) (by omega)
  rw [RotateFlip_flip i hi src] at h1
  exact SameAs_trans h1 (SameAs_symm (flipX_congr (hrot i hi)))

/-- C3 at the 2 x 2 source image. -/
theorem CreateTiles_variants_witness :
    (tile2.Valid ∧ start.m_stdTile = []) ∧
    (CreateTiles true tile2 start).m_stdTile.length = 8 ∧
    (∀ i, i < 8 → (tileAt (CreateTiles true tile2 start) i).SameAs (RotateFlip i tile2)) ∧
    (tileAt (CreateTiles true tile2 start) 0).SameAs tile2 ∧
    (∀ i, i < 4 → (tileAt (CreateTiles true tile2 start) i).SameAs (rotate90^[i] tile2)) ∧
    (∀ i, i < 4 → (tileAt (CreateTiles true tile2 start) (4 + i)).SameAs
      (flipX (tileAt (CreateTiles true tile2 start) i))) :=
  ⟨⟨by decide, rfl⟩, CreateTiles_variants tile2 (by decide) start rfl⟩

theorem rotate90_iterate_square (w : Nat) (b : Bitmap) (hw : b.width = w) (hh : b.height = w)
    (k : Nat) : (rotate90^[k] b).width = w ∧ (rotate90^[k] b).height = w := by
  induction k with
  | zero => exact ⟨hw, hh⟩
  | succ k ih =>
    rw [Function.iterate_succ_apply']
    exact ⟨ih.2, ih.1⟩

theorem RotateFlip_square (w : Nat) (b : Bitmap) (hw : b.width = w) (hh : b.height = w)
    (t : Nat) : (RotateFlip t b).width = w ∧ (RotateFlip t b).height = w := by
  unfold RotateFlip
  simp only
  split
  · exact rotate90_iterate_square w b hw hh _
  · exact rotate90_iterate_square w b hw hh _

theorem tileCopy_square (src : Bitmap) (hsq : src.width = src.height)
    (hlt : src.width < 2147483648) :
    (tileCopy true src).width = src.width ∧ (tileCopy true src).height = src.width := by
  have hW : toINT src.GetWidth = (src.width : Int) := by
    unfold Bitmap.GetWidth
    rw [← toINT_of_lt _ hlt]
    congr 1
    omega
  have hH : toINT src.GetHeight = (src.width : Int) := by
    unfold Bitmap.GetHeight
    rw [← hsq, ← toINT_of_lt _ hlt]
    congr 1
    omega
  unfold tileCopy
  rw [hW, hH]
  show (Bitmap.create true src.width src.width).width = src.width ∧
    (Bitmap.create true src.width src.width).height = src.width
  unfold Bitmap.create
  by_cases h : 0 < src.width
  · rw [if_pos ⟨rfl, by omega, by omega⟩]
    simp
  · rw [if_neg (by omega)]
    simp only [Bitmap.invalid]
    omega

/-- C4: for a square source image all 8 variants built by `CreateTiles` have
the width and the height of variant 0, and these are the width and the height
of the source. -/
theorem CreateTiles_dimensions {S : Type} (src : Bitmap) (hsq : src.width = src.height)
    (hlt : src.width < 2147483648) (s0 : CMain S) (h0 : s0.m_stdTile = []) (i : Nat) (hi : i < 8) :
    (tileAt (CreateTiles true src s0) i).width = (tileAt (CreateTiles true src s0) 0).width ∧
    (tileAt (CreateTiles true src s0) i).height = (tileAt (CreateTiles true src s0) 0).height ∧
    (tileAt (CreateTiles true src s0) i).width = src.width ∧
    (tileAt (CreateTiles true src s0) i).height = src.height := by
  obtain ⟨cw, ch⟩ := tileCopy_square src hsq hlt
  have key : ∀ k, k < 8 → (tileAt (CreateTiles true src s0) k).width = src.width ∧
      (tileAt (CreateTiles true src s0) k).height = src.width := by
    intro k hk
    rw [tileAt_CreateTiles true src s0 h0 k hk]
    exact RotateFlip_square src.width _ cw ch k
  obtain ⟨a1, a2⟩ := key i hi
  obtain ⟨b1, b2⟩ := key 0 (by omega)
  exact ⟨a1.trans b1.symm, a2.trans b2.symm, a1, a2.trans hsq⟩

/-- C4 at the 2 x 2 source image and variant 5. -/
theorem CreateTiles_dimensions_witness :
    (tile2.width = tile2.height ∧ tile2.width < 2147483648 ∧ start.m_stdTile = [] ∧ 5 < 8) ∧
    (tileAt (CreateTiles true tile2 start) 5).width
      = (tileAt (CreateTiles true tile2 start) 0).width ∧
    (tileAt (CreateTiles true tile2 start) 5).height
      = (tileAt (CreateTiles true tile2 start) 0).height ∧
    (tileAt (CreateTiles true tile2 start) 5).width = tile2.width ∧
    (tileAt (CreateTiles true tile2 start) 5).height = tile2.height :=
  ⟨⟨rfl, by decide, rfl, by decide⟩,
    CreateTiles_dimensions tile2 rfl (by decide) start rfl 5 (by decide)⟩

/-- C7: transform 3 (rotate 270) applied after transform 1 (rotate 90) gives
back the tile pixel for pixel, and transform 4 (horizontal mirror) applied
twice gives back the tile pixel for pixel; this holds for every tile, square
ones included. -/
theorem RotateFlip_round_trip (t : Bitmap) :
    (RotateFlip 3 (RotateFlip 1 t)).SameAs t ∧ (RotateFlip 4 (RotateFlip 4 t)).SameAs t := by
  constructor
  · refine ⟨rfl, rfl, ?_⟩
    intro x hx y hy
    have hx2 : x < t.width := hx
    have hy2 : y < t.height := hy
    show t.pixel (t.width - 1 - (t.width - 1 - x)) (t.height - 1 - (t.height - 1 - y)) = t.pixel x y
    congr 1 <;> omega
  · refine ⟨rfl, rfl, ?_⟩
    intro x hx y hy
    have hx2 : x < t.width := hx
    show t.pixel (t.width - 1 - (t.width - 1 - x)) y = t.pixel x y
    congr 1
    omega

theorem nOriginalAt_some (i j : Nat) (hi : i < 8) (hj : j < 8) :
    nOriginalAt i j = some ((nOriginalAt i j).getD 0) ∧ (nOriginalAt i j).getD 0 < 8 := by
  interval_cases i <;> interval_cases j <;> exact ⟨rfl, by decide⟩

theorem RandomTileIndex_lt {S : Type} (U : Distribution S) (hU : U.InRange) (tiles : List Bitmap)
    (hn : 1 ≤ tiles.length) (r : S) : (RandomTileIndex U tiles r).1 < tiles.length := by
  unfold RandomTileIndex
  have h := (hU 0 ((tiles.length % 4294967296 + 4294967296 - 1) % 4294967296) r (Nat.zero_le _)).2
  simp only
  omega

theorem tileIndex_pick {S : Type} (tess : eTesselation) (U : Distribution S)
    (hU : tess = .Random → U.InRange) (tiles : List Bitmap) (hlen : tiles.length = 8) (i : Nat) (hi : i < 8) (j : Nat) (hj : j < 8)
    (r : S) :
    tileIndex tess U tiles i j r = some (pick tess U tiles i j r) ∧
      (pick tess U tiles i j r).1 < tiles.length := by
  cases tess with
  | Original =>
    obtain ⟨h1, h2⟩ := nOriginalAt_some i j hi hj
    unfold tileIndex pick
    simp only
    rw [h1]
    simp only [Option.getD_some]
    exact ⟨trivial, by omega⟩
  | Random =>
    exact ⟨rfl, RandomTileIndex_lt U (hU rfl) tiles (by omega) r⟩

theorem randAfter_pick {S : Type} (tess : eTesselation) (U : Distribution S) (tiles : List Bitmap)
    (r : S) (k : Nat) :
    randAfter (gridPick (pick tess U tiles)) r k
      = match tess with
        | .Original => r
        | .Random => (nextRand U tiles)^[k] r := by
  induction k with
  | zero => cases tess <;> rfl
  | succ k ih =>
    show (gridPick (pick tess U tiles) k (randAfter (gridPick (pick tess U tiles)) r k)).2 = _
    rw [ih]
    cases tess with
    | Original => rfl
    | Random =>
      simp only [Function.iterate_succ_apply']
      rfl

theorem indexAt_pick {S : Type} (tess : eTesselation) (U : Distribution S) (tiles : List Bitmap)
    (r : S) (row col : Nat) (hc : col < 8) :
    indexAt (gridPick (pick tess U tiles)) r (8 * row + col) = chosenIndex tess U tiles r row col := by
  have h1 : (8 * row + col) / 8 = row := by omega
  have h2 : (8 * row + col) % 8 = col := by omega
  unfold indexAt
  rw [randAfter_pick]
  unfold gridPick
  rw [h1, h2]
  cases tess <;> rfl

/-- The mosaic `Generate` builds from 8 tiles of one size when the allocation
is granted. -/
theorem Generate_blocks {S : Type} (tess : eTesselation) (U : Distribution S)
    (hU : tess = .Random → U.InRange) (w h : Nat) (s : CMain S)
    (hw0 : 0 < w) (hh0 : 0 < h) (hw : 8 * w < 2147483648) (hh : 8 * h < 2147483648)
    (hlen : s.m_stdTile.length = 8)
    (hsz : ∀ t ∈ s.m_stdTile, t.width = w ∧ t.height = h) :
    ∃ b, Generate U true tess s
        = some ⟨some b, s.m_stdTile, finalRand tess U s.m_stdTile s.m_pRand⟩ ∧
      b.width = 8 * w ∧ b.height = 8 * h ∧
      (∀ row, row < 8 → ∀ col, col < 8 → ∀ dx, dx < w → ∀ dy, dy < h →
        b.pixel (col * w + dx) (row * h + dy)
          = (tileAt s (chosenIndex tess U s.m_stdTile s.m_pRand row col)).pixel dx dy) := by
  obtain ⟨b, hgen, hbw, hbh, hcells⟩ :=
    Generate_spec tess U w h (pick tess U s.m_stdTile) s hw0 hh0 hw hh
      (fun i hi j hj r => tileIndex_pick tess U hU s.m_stdTile hlen i hi j hj r) hsz
  refine ⟨b, ?_, hbw, hbh, ?_⟩
  · rw [hgen, randAfter_pick]
    cases tess <;> rfl
  · intro row hrow col hcol dx hdx dy hdy
    rw [hcells row hrow col hcol dx hdx dy hdy, indexAt_pick tess U s.m_stdTile s.m_pRand row col hcol]
    rfl

theorem lcg_inRange : Distribution.InRange lcg := by
  intro a b s hab
  have h : s % (b - a + 1) < b - a + 1 := Nat.mod_lt _ (by omega)
  show a ≤ a + s % (b - a + 1) ∧ a + s % (b - a + 1) ≤ b
  omega

theorem mem_CreateTiles_square {S : Type} (src : Bitmap) (hsq : src.width = src.height)
    (hlt : src.width < 2147483648) (s0 : CMain S) (h0 : s0.m_stdTile = []) :
    ∀ t ∈ (CreateTiles true src s0).m_stdTile, t.width = src.width ∧ t.height = src.width := by
  intro t ht
  rw [CreateTiles_list, h0, List.nil_append, List.mem_map] at ht
  obtain ⟨i, -, rfl⟩ := ht
  obtain ⟨cw, ch⟩ := tileCopy_square src hsq hlt
  exact RotateFlip_square src.width _ cw ch i

/-! ## The mosaic of the original tesselation -/

/-- C1: for a square source image of side `w > 0` (with `8 * w` in the range of
`int`), `Generate(Original)` on the 8 variants built by `CreateTiles` returns
with a bitmap of exactly `8 * w` by `8 * w` pixels in which, for every `row`
and `col` below 8, the block with columns `[col * w, (col + 1) * w)` and rows
`[row * w, (row + 1) * w)` equals, pixel for pixel, the `w x w` tile variant
`nOriginal[row][col]`. -/
theorem Generate_Original_mosaic {S : Type} (U : Distribution S) (src : Bitmap) (w : Nat)
    (hw0 : 0 < w) (hsw : src.width = w) (hsh : src.height = w) (hw : 8 * w < 2147483648)
    (s0 : CMain S) (h0 : s0.m_stdTile = []) :
    ∃ b, Generate U true .Original (CreateTiles true src s0)
        = some ⟨some b, (CreateTiles true src s0).m_stdTile, s0.m_pRand⟩ ∧
      b.width = 8 * w ∧ b.height = 8 * w ∧
      ∀ row, row < 8 → ∀ col, col < 8 →
        ∃ n, nOriginalAt row col = some n ∧
          (tileAt (CreateTiles true src s0) n).width = w ∧
          (tileAt (CreateTiles true src s0) n).height = w ∧
          ∀ dx, dx < w → ∀ dy, dy < w →
            b.pixel (col * w + dx) (row * w + dy)
              = (tileAt (CreateTiles true src s0) n).pixel dx dy := by
  have hsq : src.width = src.height := hsw.trans hsh.symm
  have hsz : ∀ t ∈ (CreateTiles true src s0).m_stdTile, t.width = w ∧ t.height = w := by
    intro t ht
    have := mem_CreateTiles_square src hsq (by omega) s0 h0 t ht
    rw [hsw] at this
    exact this
  obtain ⟨b, hgen, hbw, hbh, hcells⟩ :=
    Generate_blocks .Original U (fun e => nomatch e) w w (CreateTiles true src s0) hw0 hw0 hw hw
      (length_CreateTiles true src s0 h0) hsz
  refine ⟨b, hgen, hbw, hbh, ?_⟩
  intro row hrow col hcol
  obtain ⟨hsome, hlt⟩ := nOriginalAt_some row col hrow hcol
  have hmem : tileAt (CreateTiles true src s0) ((nOriginalAt row col).getD 0)
      ∈ (CreateTiles true src s0).m_stdTile := by
    unfold tileAt
    have hl : (nOriginalAt row col).getD 0 < (CreateTiles true src s0).m_stdTile.length := by
      rw [length_CreateTiles true src s0 h0]
      exact hlt
    rw [List.getD_eq_getElem _ _ hl]
    exact List.getElem_mem hl
  refine ⟨(nOriginalAt row col).getD 0, hsome, (hsz _ hmem).1, (hsz _ hmem).2, ?_⟩
  intro dx hdx dy hdy
  exact hcells row hrow col hcol dx hdx dy hdy

/-- C1 at a 2 x 2 source image: the hypotheses hold and the mosaic is 16 x 16. -/
theorem Generate_Original_mosaic_witness :
    (0 < 2 ∧ tile2.width = 2 ∧ tile2.height = 2 ∧ 8 * 2 < 2147483648 ∧ start.m_stdTile = []) ∧
    ∃ b, Generate lcg true .Original (CreateTiles true tile2 start)
        = some ⟨some b, (CreateTiles true tile2 start).m_stdTile, start.m_pRand⟩ ∧
      b.width = 8 * 2 ∧ b.height = 8 * 2 ∧
      ∀ row, row < 8 → ∀ col, col < 8 →
        ∃ n, nOriginalAt row col = some n ∧
          (tileAt (CreateTiles true tile2 start) n).width = 2 ∧
          (tileAt (CreateTiles true tile2 start) n).height = 2 ∧
          ∀ dx, dx < 2 → ∀ dy, dy < 2 →
            b.pixel (col * 2 + dx) (row * 2 + dy)
              = (tileAt (CreateTiles true tile2 start) n).pixel dx dy :=
  ⟨⟨by decide, rfl, rfl, by decide, rfl⟩,
    Generate_Original_mosaic lcg tile2 2 (by decide) rfl rfl (by decide) start rfl⟩

/-! ## The mosaic of the random tesselation -/

theorem counting_inRange {S : Type} (U : Distribution S) (hU : U.InRange) :
    (counting U).InRange := by
  intro a b s hab
  exact hU a b s.1 hab

theorem counting_iterate {S : Type} (U : Distribution S) (tiles : List Bitmap) (r : S)
    (c k : Nat) : ((nextRand (counting U) tiles)^[k] (r, c)).2 = c + k := by
  induction k with
  | zero => rfl
  | succ k ih =>
    rw [Function.iterate_succ_apply']
    show ((nextRand (counting U) tiles)^[k] (r, c)).2 + 1 = c + (k + 1)
    rw [ih]
    rfl

/-- C2: for every engine state and 8 tiles of one size `w x h` (with `8 * w`
and `8 * h` in the range of `int`), `Generate(Random)` returns; the engine is
left in the state reached by exactly 64 successive calls of `RandomTileIndex`
(an engine that counts its draws ends 64 higher); the bitmap is `8 * w` by
`8 * h`; the block at origin `(col * w, row * h)` equals the tile whose index
call number `8 * row + col` returned (row-major order); for 32 x 32 tiles the
bitmap is 256 x 256. -/
theorem Generate_Random_mosaic {S : Type} (U : Distribution S) (hU : U.InRange) (w h : Nat)
    (s : CMain S) (hw0 : 0 < w) (hh0 : 0 < h)
    (hw : 8 * w < 2147483648) (hh : 8 * h < 2147483648)
    (hlen : s.m_stdTile.length = 8)
    (hsz : ∀ t ∈ s.m_stdTile, t.width = w ∧ t.height = h) :
    (∃ b, Generate U true .Random s
        = some ⟨some b, s.m_stdTile, (nextRand U s.m_stdTile)^[64] s.m_pRand⟩ ∧
      b.width = 8 * w ∧ b.height = 8 * h ∧
      (∀ row, row < 8 → ∀ col, col < 8 →
        nthDraw U s.m_stdTile s.m_pRand (8 * row + col) < 8 ∧
        ∀ dx, dx < w → ∀ dy, dy < h →
          b.pixel (col * w + dx) (row * h + dy)
            = (tileAt s (nthDraw U s.m_stdTile s.m_pRand (8 * row + col))).pixel dx dy) ∧
      (w = 32 → h = 32 → b.width = 256 ∧ b.height = 256)) ∧
    (∀ c : Nat, ∃ b r, Generate (counting U) true .Random ⟨s.m_pBitmap, s.m_stdTile, (s.m_pRand, c)⟩
        = some ⟨some b, s.m_stdTile, (r, c + 64)⟩) := by
  constructor
  · obtain ⟨b, hgen, hbw, hbh, hcells⟩ :=
      Generate_blocks .Random U (fun _ => hU) w h s hw0 hh0 hw hh hlen hsz
    refine ⟨b, hgen, hbw, hbh, ?_, ?_⟩
    · intro row hrow col hcol
      refine ⟨?_, ?_⟩
      · have := RandomTileIndex_lt U hU s.m_stdTile (by omega)
          ((nextRand U s.m_stdTile)^[8 * row + col] s.m_pRand)
        rw [hlen] at this
        exact this
      · intro dx hdx dy hdy
        exact hcells row hrow col hcol dx hdx dy hdy
    · intro ew eh
      subst ew
      subst eh
      exact ⟨hbw, hbh⟩
  · intro c
    obtain ⟨b, hgen, -⟩ :=
      Generate_blocks .Random (counting U) (fun _ => counting_inRange U hU) w h
        ⟨s.m_pBitmap, s.m_stdTile, (s.m_pRand, c)⟩ hw0 hh0 hw hh hlen hsz
    refine ⟨b, ((nextRand (counting U) s.m_stdTile)^[64] (s.m_pRand, c)).1, ?_⟩
    rw [hgen]
    have := counting_iterate U s.m_stdTile s.m_pRand c 64
    simp only [finalRand]
    rw [← this]

/-- C2 at eight 3 x 2 tiles and the congruential engine started at 42. -/
theorem Generate_Random_mosaic_witness :
    (Distribution.InRange lcg ∧ 0 < 3 ∧ 0 < 2 ∧ 8 * 3 < 2147483648 ∧ 8 * 2 < 2147483648 ∧
      flatTiles.length = 8 ∧ ∀ t ∈ flatTiles, t.width = 3 ∧ t.height = 2) ∧
    (∃ b, Generate lcg true .Random (⟨none, flatTiles, 42⟩ : CMain Nat)
        = some ⟨some b, flatTiles, (nextRand lcg flatTiles)^[64] 42⟩ ∧
      b.width = 8 * 3 ∧ b.height = 8 * 2 ∧
      (∀ row, row < 8 → ∀ col, col < 8 →
        nthDraw lcg flatTiles 42 (8 * row + col) < 8 ∧
        ∀ dx, dx < 3 → ∀ dy, dy < 2 →
          b.pixel (col * 3 + dx) (row * 2 + dy)
            = (tileAt (⟨none, flatTiles, 42⟩ : CMain Nat)
                (nthDraw lcg flatTiles 42 (8 * row + col))).pixel dx dy) ∧
      (3 = 32 → 2 = 32 → b.width = 256 ∧ b.height = 256)) ∧
    (∀ c : Nat, ∃ b r, Generate (counting lcg) true .Random ⟨none, flatTiles, (42, c)⟩
        = some ⟨some b, flatTiles, (r, c + 64)⟩) :=
  ⟨⟨lcg_inRange, by decide, by decide, by decide, by decide, rfl, by decide⟩,
    Generate_Random_mosaic lcg lcg_inRange 3 2 ⟨none, flatTiles, 42⟩ (by decide) (by decide)
      (by decide) (by decide) rfl (by decide)⟩

/-! ## The random tile index -/

/-- C5: for every engine state, with `n >= 1` tiles `RandomTileIndex` returns
a value in `[0, n - 1]` (in `[0, 7]` for 8 tiles), so the lookup
`m_stdTile[nTileIndex]` succeeds, and so does the lookup of every call of a
run of successive calls, as made by `Generate(Random)`. -/
theorem RandomTileIndex_in_bounds {S : Type} (U : Distribution S) (hU : U.InRange)
    (tiles : List Bitmap) (hn : 1 ≤ tiles.length) (r : S) :
    (RandomTileIndex U tiles r).1 ≤ tiles.length - 1 ∧
    (tiles.length = 8 → (RandomTileIndex U tiles r).1 ≤ 7) ∧
    (∃ t, tiles[(RandomTileIndex U tiles r).1]? = some t) ∧
    (∀ k, nthDraw U tiles r k < tiles.length ∧ ∃ t, tiles[nthDraw U tiles r k]? = some t) := by
  have key : ∀ r0 : S, (RandomTileIndex U tiles r0).1 < tiles.length :=
    fun r0 => RandomTileIndex_lt U hU tiles hn r0
  refine ⟨?_, ?_, ?_, ?_⟩
  · have := key r
    omega
  · intro h8
    have := key r
    omega
  · exact ⟨_, List.getElem?_eq_getElem (key r)⟩
  · intro k
    exact ⟨key _, _, List.getElem?_eq_getElem (key _)⟩

/-- C5 at eight tiles and the congruential engine in state 42. -/
theorem RandomTileIndex_in_bounds_witness :
    (Distribution.InRange lcg ∧ 1 ≤ flatTiles.length) ∧
    (RandomTileIndex lcg flatTiles 42).1 ≤ flatTiles.length - 1 ∧
    (flatTiles.length = 8 → (RandomTileIndex lcg flatTiles 42).1 ≤ 7) ∧
    (∃ t, flatTiles[(RandomTileIndex lcg flatTiles 42).1]? = some t) ∧
    (∀ k, nthDraw lcg flatTiles 42 k < flatTiles.length ∧
      ∃ t, flatTiles[nthDraw lcg flatTiles 42 k]? = some t) :=
  ⟨⟨lcg_inRange, by decide⟩, RandomTileIndex_in_bounds lcg lcg_inRange flatTiles (by decide) 42⟩

/-! ## The table of the original tesselation -/

/-- C6: the lookup used by `Generate(Original)` is defined at every `(i, j)` of
`[0, 8) x [0, 8)`, its value is at most 7, it does not depend on the engine,
the distribution or the tiles (and leaves the engine state unchanged), its 64
values are the literal table, and the values at `(0, 0)`, `(0, 2)` and
`(7, 0)` are 0, 5 and 3. -/
theorem nOriginal_lookup {S : Type} (U : Distribution S) (tiles : List Bitmap) (r : S)
    (i j : Nat) (hi : i < 8) (hj : j < 8) :
    (∃ n, nOriginalAt i j = some n ∧ n ≤ 7 ∧
      tileIndex .Original U tiles i j r = some (n, r)) ∧
    (List.range 8).map (fun a => (List.range 8).map (fun b => nOriginalAt a b)) = originalRows ∧
    nOriginalAt 0 0 = some 0 ∧ nOriginalAt 0 2 = some 5 ∧ nOriginalAt 7 0 = some 3 := by
  obtain ⟨hsome, hlt⟩ := nOriginalAt_some i j hi hj
  refine ⟨⟨(nOriginalAt i j).getD 0, hsome, by omega, ?_⟩, by decide, rfl, rfl, rfl⟩
  unfold tileIndex
  simp only
  rw [hsome]
  simp only [Option.getD_some]

/-- C6 at cell `(0, 2)` with the congruential engine. -/
theorem nOriginal_lookup_witness :
    (0 < 8 ∧ 2 < 8) ∧
    (∃ n, nOriginalAt 0 2 = some n ∧ n ≤ 7 ∧
      tileIndex .Original lcg flatTiles 0 2 42 = some (n, 42)) ∧
    (List.range 8).map (fun a => (List.range 8).map (fun b => nOriginalAt a b)) = originalRows ∧
    nOriginalAt 0 0 = some 0 ∧ nOriginalAt 0 2 = some 5 ∧ nOriginalAt 7 0 = some 3 :=
  ⟨⟨by decide, by decide⟩, nOriginal_lookup lcg flatTiles 42 0 2 (by decide) (by decide)⟩

/-! ## Allocation failure in `Generate` -/

/-- The inner loop runs to its end and keeps the size of the bitmap, whatever
that size is. -/
theorem row_dims {S : Type} (tess : eTesselation) (U : Distribution S) (tiles : List Bitmap)
    (w i : Nat) (y : Int) (q : Nat → S → Nat × S)
    (hq : ∀ j, j < 8 → ∀ r, tileIndex tess U tiles i j r = some (q j r) ∧ (q j r).1 < tiles.length)
    (g : Bitmap) (r : S) (x : Int) (n : Nat) (hn : n ≤ 8) :
    ∃ gn xn, (List.range n).foldlM (drawTile tess U tiles w i y) ⟨g, r, x⟩
        = some ⟨gn, randAfter q r n, xn⟩ ∧
      gn.width = g.width ∧ gn.height = g.height := by
  induction n with
  | zero => exact ⟨g, x, by simp [randAfter], rfl, rfl⟩
  | succ n ih =>
    obtain ⟨gn, xn, hfold, hgw, hgh⟩ := ih (by omega)
    obtain ⟨hidx, hlt⟩ := hq n (by omega) (randAfter q r n)
    refine ⟨DrawImage gn (tiles.getD (q n (randAfter q r n)).1 Bitmap.invalid) xn y,
      addAssign xn w, ?_, hgw, hgh⟩
    rw [List.range_succ, List.foldlM_append, hfold]
    simp only [List.foldlM_cons, List.foldlM_nil, bind_pure, Option.some_bind, Option.bind_eq_bind]
    rw [drawTile_eq tess U tiles w i _ _ n (q n (randAfter q r n)) hidx hlt]
    rfl

/-- The outer loop runs to its end and keeps the size of the bitmap, whatever that
size is. -/
theorem grid_dims {S : Type} (tess : eTesselation) (U : Distribution S) (tiles : List Bitmap)
    (w h : Nat) (p : Nat → Nat → S → Nat × S)
    (hp : ∀ i, i < 8 → ∀ j, j < 8 → ∀ r,
      tileIndex tess U tiles i j r = some (p i j r) ∧ (p i j r).1 < tiles.length)
    (g : Bitmap) (r0 : S) (m : Nat) (hm : m ≤ 8) :
    ∃ gm ym, (List.range m).foldlM (drawRow tess U tiles w h) ⟨g, r0, 0⟩
        = some ⟨gm, randAfter (gridPick p) r0 (8 * m), ym⟩ ∧
      gm.width = g.width ∧ gm.height = g.height := by
  induction m with
  | zero => exact ⟨g, 0, by simp [randAfter], rfl, rfl⟩
  | succ m ih =>
    obtain ⟨gm, ym, hfold, hgw, hgh⟩ := ih (by omega)
    obtain ⟨gn, xn, hrow, hnw, hnh⟩ :=
      row_dims tess U tiles w m ym (p m) (hp m (by omega)) gm
        (randAfter (gridPick p) r0 (8 * m)) 0 8 (le_refl 8)
    refine ⟨gn, addAssign ym h, ?_, hnw.trans hgw, hnh.trans hgh⟩
    rw [List.range_succ, List.foldlM_append, hfold]
    simp only [List.foldlM_cons, List.foldlM_nil, bind_pure, Option.some_bind, Option.bind_eq_bind]
    unfold drawRow
    simp only [nSize]
    rw [hrow]
    simp only
    rw [randAfter_row p r0 m 8 (le_refl 8)]
    rfl

/-- What `Generate` leaves behind when the allocation is refused: an invalid
bitmap without pixels. -/
theorem Generate_refused {S : Type} (tess : eTesselation) (U : Distribution S)
    (hU : tess = .Random → U.InRange) (s : CMain S) (hlen : s.m_stdTile.length = 8) :
    ∃ b, Generate U false tess s
        = some ⟨some b, s.m_stdTile, finalRand tess U s.m_stdTile s.m_pRand⟩ ∧
      b.width = 0 ∧ b.height = 0 := by
  have hl0 : 0 < s.m_stdTile.length := by omega
  obtain ⟨gm, ym, hfold, hgw, hgh⟩ :=
    grid_dims tess U s.m_stdTile s.m_stdTile[0].GetWidth s.m_stdTile[0].GetHeight
      (pick tess U s.m_stdTile)
      (fun i hi j hj r => tileIndex_pick tess U hU s.m_stdTile hlen i hi j hj r)
      (Clear Bitmap.invalid fillColor) s.m_pRand 8 (le_refl 8)
  refine ⟨gm, ?_, hgw, hgh⟩
  have hc : ∀ a b : Int, Bitmap.create false a b = Bitmap.invalid := by
    intro a b
    unfold Bitmap.create
    rw [if_neg]
    rintro ⟨h, -⟩
    exact Bool.noConfusion h
  unfold Generate
  rw [List.getElem?_eq_getElem hl0]
  simp only [CreateBitmap, hc, nSize]
  rw [hfold, randAfter_pick]
  cases tess <;> rfl

/-- C8, as stated, fails: after the constructor (current bitmap: the 16 x 16
original mosaic), a `Generate` whose allocation is refused completes with an
invalid bitmap of width 0 as the current bitmap; this is neither a composed
mosaic nor the previous bitmap. -/
theorem Generate_not_all_or_nothing :
    ¬ AllOrNothing lcg false .Random constructed ∧
    (constructed.m_pBitmap.map (fun b => (b.width, b.height)) = some (16, 16)) ∧
    ((Generate lcg false .Random constructed).map
        (fun s1 => s1.m_pBitmap.map (fun b => (b.width, b.height))) = some (some (0, 0))) := by
  have hprev : constructed.m_pBitmap.map (fun b => (b.width, b.height)) = some (16, 16) := by
    decide
  have hnew : (Generate lcg false .Random constructed).map
      (fun s1 => s1.m_pBitmap.map (fun b => (b.width, b.height))) = some (some (0, 0)) := by
    decide
  have htile : (tileAt constructed 0).width = 2 := by decide
  refine ⟨?_, hprev, hnew⟩
  rintro ⟨s1, hgen, hor⟩
  rw [hgen] at hnew
  simp only [Option.map_some'] at hnew
  have hnew2 := Option.some.inj hnew
  rcases hor with ⟨b, hb, hbw, -, -⟩ | ⟨-, hint⟩
  · rw [hb] at hnew2
    simp only [Option.map_some', Option.some.injEq, Prod.mk.injEq] at hnew2
    omega
  · unfold PreviousIntact at hint
    cases hp : constructed.m_pBitmap with
    | none => rw [hp] at hprev; simp at hprev
    | some a =>
      cases hs : s1.m_pBitmap with
      | none => rw [hs] at hnew2; simp at hnew2
      | some b =>
        rw [hp, hs] at hint
        rw [hp] at hprev
        rw [hs] at hnew2
        simp only [Option.map_some', Option.some.injEq, Prod.mk.injEq] at hprev hnew2
        have := hint.1
        omega

/-- C8 as amended: `Generate` discards the previous bitmap before it
allocates.  With 8 tiles of one size, when the allocation is granted the call
completes and the current bitmap is the fully composed new mosaic; when it is
refused the call completes and the current bitmap is an invalid bitmap without
pixels, which is not the previous bitmap if that one had pixels. -/
theorem Generate_replaces_bitmap {S : Type} (tess : eTesselation) (U : Distribution S)
    (hU : tess = .Random → U.InRange) (w h : Nat) (s : CMain S)
    (hw0 : 0 < w) (hh0 : 0 < h) (hw : 8 * w < 2147483648) (hh : 8 * h < 2147483648)
    (hlen : s.m_stdTile.length = 8)
    (hsz : ∀ t ∈ s.m_stdTile, t.width = w ∧ t.height = h) :
    (∃ b, Generate U true tess s
        = some ⟨some b, s.m_stdTile, finalRand tess U s.m_stdTile s.m_pRand⟩ ∧
      b.width = 8 * w ∧ b.height = 8 * h ∧
      (∀ row, row < 8 → ∀ col, col < 8 → ∀ dx, dx < w → ∀ dy, dy < h →
        b.pixel (col * w + dx) (row * h + dy)
          = (tileAt s (chosenIndex tess U s.m_stdTile s.m_pRand row col)).pixel dx dy)) ∧
    (∃ b, Generate U false tess s
        = some ⟨some b, s.m_stdTile, finalRand tess U s.m_stdTile s.m_pRand⟩ ∧
      b.width = 0 ∧ b.height = 0 ∧
      ∀ prev, s.m_pBitmap = some prev → 0 < prev.width → ¬ b.SameAs prev) := by
  refine ⟨Generate_blocks tess U hU w h s hw0 hh0 hw hh hlen hsz, ?_⟩
  obtain ⟨b, hgen, hbw, hbh⟩ := Generate_refused tess U hU s hlen
  refine ⟨b, hgen, hbw, hbh, ?_⟩
  intro prev _ hpos hsame
  have := hsame.1
  omega

/-- C8 as amended, at eight 3 x 2 tiles with a previous 5 x 5 bitmap. -/
theorem Generate_replaces_bitmap_witness :
    ((eTesselation.Random = .Random → Distribution.InRange lcg) ∧ 0 < 3 ∧ 0 < 2 ∧
      8 * 3 < 2147483648 ∧ 8 * 2 < 2147483648 ∧ flatTiles.length = 8 ∧
      ∀ t ∈ flatTiles, t.width = 3 ∧ t.height = 2) ∧
    (∃ b, Generate lcg true .Random (⟨some ⟨5, 5, fun _ _ => 1⟩, flatTiles, 42⟩ : CMain Nat)
        = some ⟨some b, flatTiles, finalRand .Random lcg flatTiles 42⟩ ∧
      b.width = 8 * 3 ∧ b.height = 8 * 2 ∧
      (∀ row, row < 8 → ∀ col, col < 8 → ∀ dx, dx < 3 → ∀ dy, dy < 2 →
        b.pixel (col * 3 + dx) (row * 2 + dy)
          = (tileAt (⟨some ⟨5, 5, fun _ _ => 1⟩, flatTiles, 42⟩ : CMain Nat)
              (chosenIndex .Random lcg flatTiles 42 row col)).pixel dx dy)) ∧
    (∃ b, Generate lcg false .Random (⟨some ⟨5, 5, fun _ _ => 1⟩, flatTiles, 42⟩ : CMain Nat)
        = some ⟨some b, flatTiles, finalRand .Random lcg flatTiles 42⟩ ∧
      b.width = 0 ∧ b.height = 0 ∧
      ∀ prev, (some ⟨5, 5, fun _ _ => 1⟩ : Option Bitmap) = some prev → 0 < prev.width →
        ¬ b.SameAs prev) :=
  ⟨⟨fun _ => lcg_inRange, by decide, by decide, by decide, by decide, rfl, by decide⟩,
    Generate_replaces_bitmap .Random lcg (fun _ => lcg_inRange) 3 2
      ⟨some ⟨5, 5, fun _ _ => 1⟩, flatTiles, 42⟩ (by decide) (by decide) (by decide) (by decide)
      rfl (by decide)⟩

/-! ## The destination rectangle of `OnPaint` -/

/-- C9, as stated, fails: for a 256 x 128 bitmap in a 100 x 100 client area
the destination rectangle is 100 x 100, which has not the aspect ratio of the
bitmap. -/
theorem OnPaint_distorts :
    (0 : Int) < 256 ∧ (0 : Int) < 128 ∧ (0 : Int) ≤ 100 ∧
    OnPaint 256 128 100 100 = (0, 0, 100, 100) ∧ ¬ PreservesAspect 256 128 100 100 := by
  decide

theorem winMin_eq (a b : Int) : winMin a b = min a b := by
  unfold winMin
  split <;> omega

/-- C9 as amended: for `bw, bh > 0` and `cw, ch >= 0` the destination rectangle
has width `min (min cw ch) bw` and height `min (min cw ch) bh`; it has the
aspect ratio of the bitmap exactly when the bitmap is square, or the client
area is empty, or the bitmap fits into the square of side `min cw ch` (and is
drawn at its own size). -/
theorem OnPaint_aspect (bw bh cw ch : Int) (hbw : 0 < bw) (hbh : 0 < bh)
    (hcw : 0 ≤ cw) (hch : 0 ≤ ch) :
    (OnPaint bw bh cw ch).2.2.1 = min (min cw ch) bw ∧
    (OnPaint bw bh cw ch).2.2.2 = min (min cw ch) bh ∧
    (PreservesAspect bw bh cw ch ↔
      bw = bh ∨ min cw ch = 0 ∨ (bw ≤ min cw ch ∧ bh ≤ min cw ch)) := by
  have h1 : (OnPaint bw bh cw ch).2.2.1 = min (min cw ch) bw := by
    simp only [OnPaint, winMin_eq]
  have h2 : (OnPaint bw bh cw ch).2.2.2 = min (min cw ch) bh := by
    simp only [OnPaint, winMin_eq]
  refine ⟨h1, h2, ?_⟩
  unfold PreservesAspect
  rw [h1, h2]
  have hs : 0 ≤ min cw ch := le_min hcw hch
  generalize min cw ch = m at hs
  rcases le_or_lt bw m with hwm | hwm <;> rcases le_or_lt bh m with hhm | hhm
  · rw [min_eq_right hwm, min_eq_right hhm]
    constructor
    · intro _
      exact Or.inr (Or.inr ⟨hwm, hhm⟩)
    · intro _
      exact mul_comm bw bh
  · rw [min_eq_right hwm, min_eq_left hhm.le]
    constructor
    · intro he
      have : bw * bh = bw * m := by rw [he, mul_comm]
      have := mul_left_cancel₀ (ne_of_gt hbw) this
      omega
    · rintro (h | h | ⟨_, h⟩) <;> omega
  · rw [min_eq_left hwm.le, min_eq_right hhm]
    constructor
    · intro he
      have : bh * m = bh * bw := by rw [mul_comm, he]
      have := mul_left_cancel₀ (ne_of_gt hbh) this
      omega
    · rintro (h | h | ⟨h, _⟩) <;> omega
  · rw [min_eq_left hwm.le, min_eq_left hhm.le]
    constructor
    · intro he
      by_cases hm : m = 0
      · exact Or.inr (Or.inl hm)
      · exact Or.inl (mul_left_cancel₀ hm he).symm
    · rintro (h | h | ⟨h, _⟩)
      · rw [h]
      · rw [h]
        simp
      · omega

/-- C9 as amended, at a 256 x 256 bitmap in a 300 x 100 client area. -/
theorem OnPaint_aspect_witness :
    ((0 : Int) < 256 ∧ (0 : Int) < 256 ∧ (0 : Int) ≤ 300 ∧ (0 : Int) ≤ 100) ∧
    (OnPaint 256 256 300 100).2.2.1 = min (min 300 100) 256 ∧
    (OnPaint 256 256 300 100).2.2.2 = min (min 300 100) 256 ∧
    (PreservesAspect 256 256 300 100 ↔
      (256 : Int) = 256 ∨ min (300 : Int) 100 = 0 ∨
        ((256 : Int) ≤ min 300 100 ∧ (256 : Int) ≤ min 300 100)) :=
  ⟨by decide, OnPaint_aspect 256 256 300 100 (by decide) (by decide) (by decide) (by decide)⟩

/-! ## The cells tile the bitmap -/

theorem mul_succ_le (a b n : Nat) (h : a < b) : (a + 1) * n ≤ b * n :=
  Nat.mul_le_mul_right n h

/-- A pixel lies in at most one cell. -/
theorem inCell_unique (w h row col row2 col2 px py : Nat)
    (h1 : inCell w h row col px py) (h2 : inCell w h row2 col2 px py) :
    row = row2 ∧ col = col2 := by
  obtain ⟨a1, a2, a3, a4⟩ := h1
  obtain ⟨b1, b2, b3, b4⟩ := h2
  constructor
  · rcases Nat.lt_trichotomy row row2 with hlt | heq | hgt
    · have := mul_succ_le row row2 h hlt
      omega
    · exact heq
    · have := mul_succ_le row2 row h hgt
      omega
  · rcases Nat.lt_trichotomy col col2 with hlt | heq | hgt
    · have := mul_succ_le col col2 w hlt
      omega
    · exact heq
    · have := mul_succ_le col2 col w hgt
      omega

/-- A pixel of the bitmap lies in the cell found by dividing its coordinates by
the tile size. -/
theorem inCell_div (w h px py : Nat) (hx : px < 8 * w) (hy : py < 8 * h) :
    py / h < 8 ∧ px / w < 8 ∧ inCell w h (py / h) (px / w) px py ∧
      px / w * w + px % w = px ∧ py / h * h + py % h = py ∧ px % w < w ∧ py % h < h := by
  have hw : 0 < w := by
    rcases Nat.eq_zero_or_pos w with h0 | h0
    · subst h0
      omega
    · exact h0
  have hh : 0 < h := by
    rcases Nat.eq_zero_or_pos h with h0 | h0
    · subst h0
      omega
    · exact h0
  have ex : px / w * w + px % w = px := by
    rw [Nat.mul_comm]
    exact Nat.div_add_mod px w
  have ey : py / h * h + py % h = py := by
    rw [Nat.mul_comm]
    exact Nat.div_add_mod py h
  have mx : px % w < w := Nat.mod_lt _ hw
  have my : py % h < h := by exact Nat.mod_lt _ hh
  refine ⟨(Nat.div_lt_iff_lt_mul hh).2 hy, (Nat.div_lt_iff_lt_mul hw).2 hx, ?_, ex, ey, mx, my⟩
  unfold inCell
  rw [Nat.succ_mul, Nat.succ_mul]
  omega

theorem getD_dims_le (tiles : List Bitmap) (w h : Nat)
    (hsz : ∀ t ∈ tiles, t.width = w ∧ t.height = h) (n : Nat) :
    (tiles.getD n Bitmap.invalid).width ≤ w ∧ (tiles.getD n Bitmap.invalid).height ≤ h := by
  by_cases hn : n < tiles.length
  · rw [List.getD_eq_getElem tiles Bitmap.invalid hn]
    obtain ⟨e1, e2⟩ := hsz _ (List.getElem_mem hn)
    omega
  · rw [List.getD_eq_default _ _ (by omega)]
    exact ⟨Nat.zero_le _, Nat.zero_le _⟩

/-- After drawing the cells of `order`, every listed cell of the grid holds its
tile: the last draw of a cell decides, and no other cell touches it. -/
theorem blitCells_pixel (tiles : List Bitmap) (w h : Nat) (a : Nat → Nat → Nat)
    (hsz : ∀ t ∈ tiles, t.width = w ∧ t.height = h)
    (ha : ∀ row, row < 8 → ∀ col, col < 8 → a row col < tiles.length)
    (g : Bitmap) (hgw : g.width = 8 * w) (hgh : g.height = 8 * h) (order : List (Nat × Nat)) :
    (blitCells tiles w h a order g).width = 8 * w ∧
    (blitCells tiles w h a order g).height = 8 * h ∧
    ∀ row, row < 8 → ∀ col, col < 8 → (row, col) ∈ order →
      ∀ dx, dx < w → ∀ dy, dy < h →
        (blitCells tiles w h a order g).pixel (col * w + dx) (row * h + dy)
          = (tiles.getD (a row col) Bitmap.invalid).pixel dx dy := by
  induction order using List.reverseRecOn with
  | nil =>
    refine ⟨hgw, hgh, ?_⟩
    intro row _ col _ hmem
    simp at hmem
  | append_singleton l cell ih =>
    obtain ⟨ihw, ihh, ihp⟩ := ih
    obtain ⟨r2, c2⟩ := cell
    have hstep : blitCells tiles w h a (l ++ [(r2, c2)]) g
        = DrawImage (blitCells tiles w h a l g) (tiles.getD (a r2 c2) Bitmap.invalid)
            ((c2 * w : Nat) : Int) ((r2 * h : Nat) : Int) := by
      unfold blitCells
      rw [List.foldl_append]
      rfl
    rw [hstep]
    refine ⟨ihw, ihh, ?_⟩
    intro row hrow col hcol hmem dx hdx dy hdy
    have hcw : col * w + w ≤ 8 * w := by
      have := mul_succ_le col 8 w hcol
      rw [Nat.succ_mul] at this
      exact this
    have hrh : row * h + h ≤ 8 * h := by
      have := mul_succ_le row 8 h hrow
      rw [Nat.succ_mul] at this
      exact this
    by_cases hc : r2 = row ∧ c2 = col
    · obtain ⟨e1, e2⟩ := hc
      subst e1
      subst e2
      have hl := ha r2 hrow c2 hcol
      have hm : tiles.getD (a r2 c2) Bitmap.invalid ∈ tiles := by
        rw [List.getD_eq_getElem tiles Bitmap.invalid hl]
        exact List.getElem_mem hl
      obtain ⟨tw, th⟩ := hsz _ hm
      exact DrawImage_inside _ _ _ _ _ _ (by omega) (by omega) (by omega) (by omega)
    · have hin : (row, col) ∈ l := by
        rcases List.mem_append.1 hmem with h1 | h1
        · exact h1
        · rw [List.mem_singleton, Prod.mk.injEq] at h1
          exact absurd ⟨h1.1.symm, h1.2.symm⟩ hc
      obtain ⟨dw, dh⟩ := getD_dims_le tiles w h hsz (a r2 c2)
      have hne : r2 ≠ row ∨ c2 ≠ col := by
        by_contra hcon
        push_neg at hcon
        exact hc hcon
      rw [DrawImage_outside _ _ _ _ _ _ (by
        rcases hne with hr | hcc
        · rcases Nat.lt_or_gt_of_ne hr with hlt | hgt
          · have := mul_succ_le r2 row h hlt
            rw [Nat.succ_mul] at this
            exact Or.inr (Or.inr (Or.inr (by omega)))
          · have := mul_succ_le row r2 h hgt
            rw [Nat.succ_mul] at this
            exact Or.inr (Or.inr (Or.inl (by omega)))
        · rcases Nat.lt_or_gt_of_ne hcc with hlt | hgt
          · have := mul_succ_le c2 col w hlt
            rw [Nat.succ_mul] at this
            exact Or.inr (Or.inl (by omega))
          · have := mul_succ_le col c2 w hgt
            rw [Nat.succ_mul] at this
            exact Or.inl (by omega))]
      exact ihp row hrow col hcol hin dx hdx dy hdy

theorem chosenIndex_lt {S : Type} (tess : eTesselation) (U : Distribution S)
    (hU : tess = .Random → U.InRange) (tiles : List Bitmap) (hlen : tiles.length = 8) (r : S)
    (row : Nat) (hrow : row < 8) (col : Nat) (hcol : col < 8) :
    chosenIndex tess U tiles r row col < tiles.length := by
  cases tess with
  | Original =>
    rw [hlen]
    exact (nOriginalAt_some row col hrow hcol).2
  | Random => exact RandomTileIndex_lt U (hU rfl) tiles (by omega) _

/-- C10: with 8 tiles of one size `w x h`, the 64 cell rectangles are pairwise
disjoint and cover every pixel of the `8 * w` by `8 * h` bitmap.  Hence every
pixel of the bitmap `Generate` builds is a pixel of the tile chosen for its
cell (none keeps the fill colour), and drawing the cells with the same
indices in any order that contains all 64 cells, onto any buffer of that size
whatever it is filled with, gives the same bitmap pixel for pixel. -/
theorem cells_tile_the_bitmap {S : Type} (tess : eTesselation) (U : Distribution S)
    (hU : tess = .Random → U.InRange) (w h : Nat) (s : CMain S)
    (hw0 : 0 < w) (hh0 : 0 < h) (hw : 8 * w < 2147483648) (hh : 8 * h < 2147483648)
    (hlen : s.m_stdTile.length = 8)
    (hsz : ∀ t ∈ s.m_stdTile, t.width = w ∧ t.height = h) :
    (∀ row col row2 col2 px py, inCell w h row col px py → inCell w h row2 col2 px py →
      row = row2 ∧ col = col2) ∧
    (∀ px py, px < 8 * w → py < 8 * h →
      ∃ row, row < 8 ∧ ∃ col, col < 8 ∧ inCell w h row col px py) ∧
    ∃ b, Generate U true tess s
        = some ⟨some b, s.m_stdTile, finalRand tess U s.m_stdTile s.m_pRand⟩ ∧
      b.width = 8 * w ∧ b.height = 8 * h ∧
      (∀ px py, px < 8 * w → py < 8 * h →
        b.pixel px py
          = (tileAt s (chosenIndex tess U s.m_stdTile s.m_pRand (py / h) (px / w))).pixel
              (px % w) (py % h)) ∧
      (∀ (order : List (Nat × Nat)) (g : Bitmap),
        (∀ row, row < 8 → ∀ col, col < 8 → (row, col) ∈ order) →
        g.width = 8 * w → g.height = 8 * h →
        (blitCells s.m_stdTile w h (chosenIndex tess U s.m_stdTile s.m_pRand) order g).SameAs
          b) := by
  refine ⟨fun row col row2 col2 px py h1 h2 => inCell_unique w h row col row2 col2 px py h1 h2,
    ?_, ?_⟩
  · intro px py hx hy
    obtain ⟨hr, hc, hin, -⟩ := inCell_div w h px py hx hy
    exact ⟨py / h, hr, px / w, hc, hin⟩
  · obtain ⟨b, hgen, hbw, hbh, hcells⟩ :=
      Generate_blocks tess U hU w h s hw0 hh0 hw hh hlen hsz
    have hpix : ∀ px py, px < 8 * w → py < 8 * h →
        b.pixel px py
          = (tileAt s (chosenIndex tess U s.m_stdTile s.m_pRand (py / h) (px / w))).pixel
              (px % w) (py % h) := by
      intro px py hx hy
      obtain ⟨hr, hc, -, ex, ey, mx, my⟩ := inCell_div w h px py hx hy
      have := hcells (py / h) hr (px / w) hc (px % w) mx (py % h) my
      rw [ex, ey] at this
      exact this
    refine ⟨b, hgen, hbw, hbh, hpix, ?_⟩
    intro order g hall hgw hgh
    obtain ⟨bw, bh, bp⟩ :=
      blitCells_pixel s.m_stdTile w h (chosenIndex tess U s.m_stdTile s.m_pRand) hsz
        (fun row hrow col hcol =>
          chosenIndex_lt tess U hU s.m_stdTile hlen s.m_pRand row hrow col hcol)
        g hgw hgh order
    refine ⟨bw.trans hbw.symm, bh.trans hbh.symm, ?_⟩
    intro px hx py hy
    rw [bw] at hx
    rw [bh] at hy
    obtain ⟨hr, hc, -, ex, ey, mx, my⟩ := inCell_div w h px py hx hy
    have h1 := bp (py / h) hr (px / w) hc (hall _ hr _ hc) (px % w) mx (py % h) my
    rw [ex, ey] at h1
    rw [h1, hpix px py hx hy]
    rfl

/-- C10 at eight 3 x 2 tiles, the random tesselation and the congruential
engine started at 42. -/
theorem cells_tile_the_bitmap_witness :
    ((eTesselation.Random = .Random → Distribution.InRange lcg) ∧ 0 < 3 ∧ 0 < 2 ∧
      8 * 3 < 2147483648 ∧ 8 * 2 < 2147483648 ∧ flatTiles.length = 8 ∧
      ∀ t ∈ flatTiles, t.width = 3 ∧ t.height = 2) ∧
    (∀ row col row2 col2 px py, inCell 3 2 row col px py → inCell 3 2 row2 col2 px py →
      row = row2 ∧ col = col2) ∧
    (∀ px py, px < 8 * 3 → py < 8 * 2 →
      ∃ row, row < 8 ∧ ∃ col, col < 8 ∧ inCell 3 2 row col px py) ∧
    ∃ b, Generate lcg true .Random (⟨none, flatTiles, 42⟩ : CMain Nat)
        = some ⟨some b, flatTiles, finalRand .Random lcg flatTiles 42⟩ ∧
      b.width = 8 * 3 ∧ b.height = 8 * 2 ∧
      (∀ px py, px < 8 * 3 → py < 8 * 2 →
        b.pixel px py
          = (tileAt (⟨none, flatTiles, 42⟩ : CMain Nat)
              (chosenIndex .Random lcg flatTiles 42 (py / 2) (px / 3))).pixel
              (px % 3) (py % 2)) ∧
      (∀ (order : List (Nat × Nat)) (g : Bitmap),
        (∀ row, row < 8 → ∀ col, col < 8 → (row, col) ∈ order) →
        g.width = 8 * 3 → g.height = 8 * 2 →
        (blitCells flatTiles 3 2 (chosenIndex .Random lcg flatTiles 42) order g).SameAs b) :=
  ⟨⟨fun _ => lcg_inRange, by decide, by decide, by decide, by decide, rfl, by decide⟩,
    cells_tile_the_bitmap .Random lcg (fun _ => lcg_inRange) 3 2 ⟨none, flatTiles, 42⟩
      (by decide) (by decide) (by decide) (by decide) rfl (by decide)⟩

/-! ## Source images that are not square -/

/-- A rotation by 90 degrees, repeated `k` times, swaps width and height when
`k` is odd and keeps them when `k` is even. -/
theorem rotate90_iterate_dims (b : Bitmap) (k : Nat) :
    (rotate90^[k] b).width = (if k % 2 = 0 then b.width else b.height) ∧
    (rotate90^[k] b).height = (if k % 2 = 0 then b.height else b.width) := by
  induction k with
  | zero => exact ⟨rfl, rfl⟩
  | succ k ih =>
    rw [Function.iterate_succ_apply']
    obtain ⟨iw, ih2⟩ := ih
    show (rotate90^[k] b).height = _ ∧ (rotate90^[k] b).width = _
    rw [iw, ih2]
    by_cases hk : k % 2 = 0
    · have hk1 : ¬ ((k + 1) % 2 = 0) := by omega
      rw [if_pos hk, if_pos hk, if_neg hk1, if_neg hk1]
      exact ⟨rfl, rfl⟩
    · have hk1 : (k + 1) % 2 = 0 := by omega
      rw [if_neg hk, if_neg hk, if_pos hk1, if_pos hk1]
      exact ⟨rfl, rfl⟩

/-- The size of a transformed bitmap: `RotateFlip t` swaps width and height
exactly for odd `t`. -/
theorem RotateFlip_dims (t : Nat) (b : Bitmap) :
    (RotateFlip t b).width = (if t % 2 = 0 then b.width else b.height) ∧
    (RotateFlip t b).height = (if t % 2 = 0 then b.height else b.width) := by
  have hpar : (t % 4 % 2 = 0) = (t % 2 = 0) := by
    apply propext
    constructor <;> intro h <;> omega
  have h := rotate90_iterate_dims b (t % 4)
  simp only [hpar] at h
  unfold RotateFlip
  simp only
  split
  · exact h
  · exact h

/-- The size of the tiles `CreateTiles` builds from a valid source image. -/
theorem tileAt_CreateTiles_dims {S : Type} (src : Bitmap) (hv : src.Valid) (s0 : CMain S)
    (h0 : s0.m_stdTile = []) (i : Nat) (hi : i < 8) :
    (tileAt (CreateTiles true src s0) i).width
      = (if i % 2 = 0 then src.width else src.height) ∧
    (tileAt (CreateTiles true src s0) i).height
      = (if i % 2 = 0 then src.height else src.width) := by
  rw [tileAt_CreateTiles true src s0 h0 i hi]
  obtain ⟨cw, ch, -⟩ := tileCopy_sameAs src hv
  have h := RotateFlip_dims i (tileCopy true src)
  rw [cw, ch] at h
  exact h

/-- With the allocation granted, `Generate` on 8 tiles of any sizes runs to its
end and the bitmap has 8 times the width and the height of tile 0. -/
theorem Generate_granted_dims {S : Type} (tess : eTesselation) (U : Distribution S)
    (hU : tess = .Random → U.InRange) (w h : Nat) (s : CMain S)
    (hw0 : 0 < w) (hh0 : 0 < h) (hw : 8 * w < 2147483648) (hh : 8 * h < 2147483648)
    (hlen : s.m_stdTile.length = 8)
    (ht0 : (tileAt s 0).width = w ∧ (tileAt s 0).height = h) :
    ∃ b, Generate U true tess s
        = some ⟨some b, s.m_stdTile, finalRand tess U s.m_stdTile s.m_pRand⟩ ∧
      b.width = 8 * w ∧ b.height = 8 * h := by
  have hl0 : 0 < s.m_stdTile.length := by omega
  unfold tileAt at ht0
  rw [List.getD_eq_getElem _ _ hl0] at ht0
  obtain ⟨ht0w, ht0h⟩ := ht0
  have hGW : s.m_stdTile[0].GetWidth = w := by
    unfold Bitmap.GetWidth
    rw [ht0w]
    omega
  have hGH : s.m_stdTile[0].GetHeight = h := by
    unfold Bitmap.GetHeight
    rw [ht0h]
    omega
  have hW : toINT (w * 8 % 4294967296) = ((8 * w : Nat) : Int) := by
    rw [← toINT_of_lt _ hw]
    congr 1
    omega
  have hH : toINT (h * 8 % 4294967296) = ((8 * h : Nat) : Int) := by
    rw [← toINT_of_lt _ hh]
    congr 1
    omega
  obtain ⟨gm, ym, hfold, hgw, hgh⟩ :=
    grid_dims tess U s.m_stdTile w h (pick tess U s.m_stdTile)
      (fun i hi j hj r => tileIndex_pick tess U hU s.m_stdTile hlen i hi j hj r)
      (Clear ⟨8 * w, 8 * h, fun _ _ => 0⟩ fillColor) s.m_pRand 8 (le_refl 8)
  refine ⟨gm, ?_, hgw, hgh⟩
  unfold Generate
  rw [List.getElem?_eq_getElem hl0]
  simp only [CreateBitmap, hGW, hGH, nSize, hW, hH]
  rw [create_true _ _ (by omega) (by omega), hfold, randAfter_pick]
  cases tess <;> rfl

/-- C11: for a source image of size `w x h` with `w != h`, the variants built
by `CreateTiles` with odd index have size `h x w` and those with even index
have size `w x h`; so the variants do not all have the dimensions of variant
0, and in the bitmap `Generate` builds (8 cells by 8 cells, each cell sized
from variant 0 as `w x h`) no block equals an odd-index tile. -/
theorem CreateTiles_nonsquare {S : Type} (tess : eTesselation) (U : Distribution S)
    (hU : tess = .Random → U.InRange) (src : Bitmap) (hv : src.Valid)
    (hne : src.width ≠ src.height)
    (hw : 8 * src.width < 2147483648) (hh : 8 * src.height < 2147483648)
    (s0 : CMain S) (h0 : s0.m_stdTile = []) :
    (∀ i, i < 8 → i % 2 = 1 →
      (tileAt (CreateTiles true src s0) i).width = src.height ∧
      (tileAt (CreateTiles true src s0) i).height = src.width) ∧
    (∀ i, i < 8 → i % 2 = 0 →
      (tileAt (CreateTiles true src s0) i).width = src.width ∧
      (tileAt (CreateTiles true src s0) i).height = src.height) ∧
    (¬ ∀ i, i < 8 →
      (tileAt (CreateTiles true src s0) i).width = (tileAt (CreateTiles true src s0) 0).width ∧
      (tileAt (CreateTiles true src s0) i).height
        = (tileAt (CreateTiles true src s0) 0).height) ∧
    (∃ b, Generate U true tess (CreateTiles true src s0)
        = some ⟨some b, (CreateTiles true src s0).m_stdTile,
            finalRand tess U (CreateTiles true src s0).m_stdTile s0.m_pRand⟩ ∧
      b.width = 8 * (tileAt (CreateTiles true src s0) 0).width ∧
      b.height = 8 * (tileAt (CreateTiles true src s0) 0).height ∧
      ∀ row col i, i < 8 → i % 2 = 1 →
        ¬ (block b (tileAt (CreateTiles true src s0) 0).width
            (tileAt (CreateTiles true src s0) 0).height row col).SameAs
          (tileAt (CreateTiles true src s0) i)) := by
  have hodd : ∀ i, i < 8 → i % 2 = 1 →
      (tileAt (CreateTiles true src s0) i).width = src.height ∧
      (tileAt (CreateTiles true src s0) i).height = src.width := by
    intro i hi hpar
    have h := tileAt_CreateTiles_dims src hv s0 h0 i hi
    have hn : ¬ (i % 2 = 0) := by omega
    rw [if_neg hn, if_neg hn] at h
    exact h
  have heven : ∀ i, i < 8 → i % 2 = 0 →
      (tileAt (CreateTiles true src s0) i).width = src.width ∧
      (tileAt (CreateTiles true src s0) i).height = src.height := by
    intro i hi hpar
    have h := tileAt_CreateTiles_dims src hv s0 h0 i hi
    rw [if_pos hpar, if_pos hpar] at h
    exact h
  obtain ⟨z0w, z0h⟩ := heven 0 (by omega) rfl
  refine ⟨hodd, heven, ?_, ?_⟩
  · intro hall
    have h1 := (hall 1 (by omega)).1
    rw [(hodd 1 (by omega) rfl).1, z0w] at h1
    exact hne h1.symm
  · obtain ⟨b, hgen, hbw, hbh⟩ :=
      Generate_granted_dims tess U hU src.width src.height (CreateTiles true src s0)
        hv.1 hv.2.2.1 hw hh (length_CreateTiles true src s0 h0) ⟨z0w, z0h⟩
    refine ⟨b, hgen, by rw [z0w]; exact hbw, by rw [z0h]; exact hbh, ?_⟩
    intro row col i hi hpar hsame
    have h1 : (tileAt (CreateTiles true src s0) 0).width
        = (tileAt (CreateTiles true src s0) i).width := hsame.1
    rw [(hodd i hi hpar).1, z0w] at h1
    exact hne h1

/-- C11 at the 3 x 2 source image and the original tesselation. -/
theorem CreateTiles_nonsquare_witness :
    ((eTesselation.Original = .Random → Distribution.InRange lcg) ∧ tile32.Valid ∧
      tile32.width ≠ tile32.height ∧ 8 * tile32.width < 2147483648 ∧
      8 * tile32.height < 2147483648 ∧ start.m_stdTile = []) ∧
    (∀ i, i < 8 → i % 2 = 1 →
      (tileAt (CreateTiles true tile32 start) i).width = tile32.height ∧
      (tileAt (CreateTiles true tile32 start) i).height = tile32.width) ∧
    (∀ i, i < 8 → i % 2 = 0 →
      (tileAt (CreateTiles true tile32 start) i).width = tile32.width ∧
      (tileAt (CreateTiles true tile32 start) i).height = tile32.height) ∧
    (¬ ∀ i, i < 8 →
      (tileAt (CreateTiles true tile32 start) i).width
        = (tileAt (CreateTiles true tile32 start) 0).width ∧
      (tileAt (CreateTiles true tile32 start) i).height
        = (tileAt (CreateTiles true tile32 start) 0).height) ∧
    (∃ b, Generate lcg true .Original (CreateTiles true tile32 start)
        = some ⟨some b, (CreateTiles true tile32 start).m_stdTile,
            finalRand .Original lcg (CreateTiles true tile32 start).m_stdTile start.m_pRand⟩ ∧
      b.width = 8 * (tileAt (CreateTiles true tile32 start) 0).width ∧
      b.height = 8 * (tileAt (CreateTiles true tile32 start) 0).height ∧
      ∀ row col i, i < 8 → i % 2 = 1 →
        ¬ (block b (tileAt (CreateTiles true tile32 start) 0).width
            (tileAt (CreateTiles true tile32 start) 0).height row col).SameAs
          (tileAt (CreateTiles true tile32 start) i)) :=
  ⟨⟨(fun e => nomatch e), by decide, by decide, by decide, by decide, rfl⟩,
    CreateTiles_nonsquare .Original lcg (fun e => nomatch e) tile32 (by decide) (by decide)
      (by decide) (by decide) start rfl⟩

end Mosaic
